import Mathlib

/-!
Verification of the Paper-Auto-Summarize batch-extraction-and-scoring pipeline.

The Python sources (`auto_runner.py`, `scenario_rescoring.py`) are embedded
shallowly:

* Python strings are modelled as `List Char` (`PyStr`), matching Python's
  code-point semantics for `len`, slicing, and iteration; the handful of
  string methods the code uses (`strip`, `split`, `replace`, `startswith`,
  `lower`) are given structural models below.
* The external collaborators (PyMuPDF page text, the LLM call, the file
  system) are abstracted into input data: a PDF is a list of page texts, a
  document's processing outcome is a boolean oracle, and directory trees are
  explicit entry lists.
* Numeric scores are modelled as exact rationals `ℚ`; Python's `round(x, 1)`
  is modelled by its documented round-half-to-even rule over the exact value.
-/

abbrev PyStr := List Char

/-- Model of Python `str.strip()`: drop whitespace from both ends. -/
def pyStrip (s : PyStr) : PyStr :=
  ((s.dropWhile Char.isWhitespace).reverse.dropWhile Char.isWhitespace).reverse

/-- Model of Python `str.split(sep)` for a one-character separator: split on
every occurrence, keeping empty pieces (`"".split(c) = [""]`). -/
def pySplitChar (sep : Char) : PyStr → List PyStr
  | [] => [[]]
  | c :: rest =>
    match pySplitChar sep rest with
    | [] => [[c]]
    | h :: t => if c = sep then [] :: h :: t else (c :: h) :: t

/-- Model of Python `str.startswith(pat)`. -/
def startsList (s pat : PyStr) : Bool :=
  match s, pat with
  | _, [] => true
  | [], _ :: _ => false
  | c :: cs, p :: ps => c == p && startsList cs ps

/-- Truthiness of `text.strip()` in Python: the string has a non-whitespace
character. -/
def hasContent (text : PyStr) : Bool := text.any (fun c => !c.isWhitespace)

/-! ## `auto_runner.extract_pdf_text` -/

/-- Source constant `MAX_PDF_CHARS = 30000`. -/
def MAX_PDF_CHARS : Nat := 30000

/-- The fixed truncation marker appended by `extract_pdf_text`. -/
def truncationMarker : PyStr := "\n\n[注: 文本已截断]".data

/-- One entry of `text_parts`: the page header f-string followed by the page
text, from `extract_pdf_text`. -/
def pageBlock (pageNum : Nat) (text : PyStr) : PyStr :=
  "--- 第 ".data ++ (toString pageNum).data ++ " 页 ---\n".data ++ text

/-- The `text_parts` list of `extract_pdf_text`: pages are numbered from 1 by
`enumerate(doc, 1)` and a page contributes a block iff its text has a
non-whitespace character (`if text.strip():`). -/
def pageBlocks (pages : List PyStr) : List PyStr :=
  (pages.enum.filter (fun p => hasContent p.2)).map (fun p => pageBlock (p.1 + 1) p.2)

/-- The joined text `"\n\n".join(text_parts)` of `extract_pdf_text`. -/
def joinedText (pages : List PyStr) : PyStr :=
  List.intercalate "\n\n".data (pageBlocks pages)

/-- Embedding of `auto_runner.extract_pdf_text` (lines 678-692), with the
PyMuPDF document abstracted to its list of page texts. -/
def extract_pdf_text (pages : List PyStr) : PyStr :=
  let full_text := joinedText pages
  if MAX_PDF_CHARS < full_text.length then
    full_text.take MAX_PDF_CHARS ++ truncationMarker
  else full_text

/-! ## `auto_runner.parse_theme_buckets` -/

/-- Embedding of `auto_runner.parse_theme_buckets` (lines 301-315).  The first
branch of the source is the literal condition
`line.startswith('## ') and not line.startswith('## ')` — identical string in
both tests, hence unsatisfiable — and the `elif` accepts any line starting
with `'##'` (no space required), taking `line[2:].strip()` as the name. -/
def parse_theme_buckets (content : PyStr) : List PyStr :=
  (pySplitChar '\n' content).foldl (fun themes rawLine =>
    let line := pyStrip rawLine
    if startsList line "## ".data && !(startsList line "## ".data) then
      let theme_name := pyStrip (line.drop 3)
      if theme_name.isEmpty then themes else themes ++ [theme_name]
    else if startsList line "##".data then
      let theme_name := pyStrip (line.drop 2)
      if theme_name.isEmpty then themes else themes ++ [theme_name]
    else themes) []

/-! ## Theorems for C10 and C4 -/

/-- C10: a document whose joined page text is at most 30000 characters is
returned unchanged; a longer one is cut to its first 30000 characters plus the
fixed truncation marker, so the returned length is 30000 + 12 = 30012,
strictly above the 30000-character budget. -/
theorem claim_C10_pdf_text_truncation (pages : List PyStr) :
    extract_pdf_text pages =
      (if (joinedText pages).length ≤ MAX_PDF_CHARS then joinedText pages
       else (joinedText pages).take MAX_PDF_CHARS ++ truncationMarker)
  ∧ (extract_pdf_text pages).length =
      (if (joinedText pages).length ≤ MAX_PDF_CHARS then (joinedText pages).length
       else MAX_PDF_CHARS + truncationMarker.length)
  ∧ MAX_PDF_CHARS + truncationMarker.length = 30012
  ∧ MAX_PDF_CHARS < MAX_PDF_CHARS + truncationMarker.length := by
  have hm : truncationMarker.length = 12 := by decide
  by_cases h : (joinedText pages).length ≤ MAX_PDF_CHARS
  · have h2 : ¬ MAX_PDF_CHARS < (joinedText pages).length := Nat.not_lt.2 h
    refine ⟨?_, ?_, by decide, by decide⟩
    · simp [extract_pdf_text, h, h2]
    · simp [extract_pdf_text, h, h2]
  · have h2 : MAX_PDF_CHARS < (joinedText pages).length := Nat.not_le.1 h
    refine ⟨?_, ?_, by decide, by decide⟩
    · simp [extract_pdf_text, h, h2]
    · have : ((joinedText pages).take MAX_PDF_CHARS).length = MAX_PDF_CHARS := by
        simp [List.length_take]
        omega
      simp [extract_pdf_text, h, h2, List.length_append, this]

/-- C4 (code bug, `auto_runner.parse_theme_buckets`): the condition
`line.startswith('## ') and not line.startswith('## ')` is unsatisfiable, so
every line falls through to `elif line.startswith('##')`.  Evaluating the code
on a document with a one-level heading, a three-marker heading and a
space-less `##` line shows the latter two are also accepted as bucket
declarations (the three-marker heading yielding the name `# 子主题`),
contradicting the claimed exactly-one-level rule. -/
theorem claim_C4_heading_level_bug :
    parse_theme_buckets "## 主题A\n### 子主题\n##无空格\n# 一个井号\n正文".data =
      ["主题A".data, "# 子主题".data, "无空格".data] := by decide

/-! ## A model of Python `set` + `sorted`, and a stable insertion sort

`parse_selection` collects indices in a `set` and returns `sorted(list(...))`;
`scan_folders` and the rescoring script call Python's stable `sort`.  The set
is modelled as an insertion-ordered duplicate-free list, and `sorted`/`sort`
as an insertion sort that keeps earlier elements first on ties (Python's sort
is stable). -/

def setInsert (x : Nat) (s : List Nat) : List Nat :=
  if x ∈ s then s else s ++ [x]

def setUnionList (s : List Nat) (xs : List Nat) : List Nat :=
  xs.foldl (fun s x => setInsert x s) s

/-- Stable insert: `x` goes after every leading `y` with `le y x`. -/
def insertSorted (le : α → α → Bool) (x : α) : List α → List α
  | [] => [x]
  | y :: ys => if le y x then y :: insertSorted le x ys else x :: y :: ys

/-- Stable insertion sort: processes the list left to right, so on ties the
earlier element stays first (as Python's `sorted`/`list.sort`). -/
def sortWith (le : α → α → Bool) (l : List α) : List α :=
  l.foldl (fun acc x => insertSorted le x acc) []

theorem mem_setInsert (y x : Nat) (s : List Nat) :
    y ∈ setInsert x s ↔ y = x ∨ y ∈ s := by
  unfold setInsert
  split
  · next h => constructor
              · exact fun hy => Or.inr hy
              · rintro (rfl | hy)
                · exact h
                · exact hy
  · simp [or_comm]

theorem nodup_setInsert (x : Nat) (s : List Nat) (h : s.Nodup) :
    (setInsert x s).Nodup := by
  unfold setInsert
  split
  · exact h
  · next hx =>
    rw [List.nodup_append]
    exact ⟨h, List.nodup_singleton x,
      fun a ha hax => hx ((List.mem_singleton.1 hax) ▸ ha)⟩

theorem mem_setUnionList (y : Nat) (xs : List Nat) :
    ∀ s, y ∈ setUnionList s xs ↔ y ∈ s ∨ y ∈ xs := by
  induction xs with
  | nil => simp [setUnionList]
  | cons x xs ih =>
    intro s
    have := ih (setInsert x s)
    simp only [setUnionList, List.foldl_cons] at this ⊢
    rw [this, mem_setInsert]
    simp
    tauto

theorem nodup_setUnionList (xs : List Nat) :
    ∀ s, s.Nodup → (setUnionList s xs).Nodup := by
  induction xs with
  | nil => exact fun s h => h
  | cons x xs ih =>
    intro s h
    simp only [setUnionList, List.foldl_cons]
    exact ih _ (nodup_setInsert x s h)

theorem insertSorted_perm (le : α → α → Bool) (x : α) :
    ∀ l : List α, (insertSorted le x l).Perm (x :: l) := by
  intro l
  induction l with
  | nil => simp [insertSorted]
  | cons y ys ih =>
    unfold insertSorted
    split
    · exact ((ih.cons y).trans (List.Perm.swap x y ys))
    · exact List.Perm.refl _

theorem foldl_insertSorted_perm (le : α → α → Bool) :
    ∀ (l acc : List α), (l.foldl (fun acc x => insertSorted le x acc) acc).Perm (acc ++ l) := by
  intro l
  induction l with
  | nil => simp
  | cons x xs ih =>
    intro acc
    simp only [List.foldl_cons]
    have h1 := ih (insertSorted le x acc)
    have h2 : (insertSorted le x acc ++ xs).Perm (acc ++ x :: xs) := by
      have := (insertSorted_perm le x acc).append_right xs
      exact this.trans List.perm_middle.symm
    exact h1.trans h2

theorem sortWith_perm (le : α → α → Bool) (l : List α) :
    (sortWith le l).Perm l := by
  simpa [sortWith] using foldl_insertSorted_perm le l []

theorem insertSorted_pairwise (le : α → α → Bool)
    (htot : ∀ a b, le a b = true ∨ le b a = true)
    (htrans : ∀ a b c, le a b = true → le b c = true → le a c = true)
    (x : α) :
    ∀ l : List α, l.Pairwise (fun a b => le a b = true) →
      (insertSorted le x l).Pairwise (fun a b => le a b = true) := by
  intro l
  induction l with
  | nil => intro _; simp [insertSorted]
  | cons y ys ih =>
    intro h
    rw [List.pairwise_cons] at h
    obtain ⟨hy, hys⟩ := h
    unfold insertSorted
    split
    · next hle =>
      rw [List.pairwise_cons]
      refine ⟨?_, ih hys⟩
      intro z hz
      rcases List.mem_cons.1 (((insertSorted_perm le x ys).mem_iff).1 hz) with rfl | hz2
      · exact hle
      · exact hy z hz2
    · next hle =>
      have hxy : le x y = true := by
        rcases htot y x with h | h
        · exact absurd h hle
        · exact h
      rw [List.pairwise_cons]
      refine ⟨?_, List.pairwise_cons.2 ⟨hy, hys⟩⟩
      intro z hz
      rcases List.mem_cons.1 hz with rfl | hz
      · exact hxy
      · exact htrans x y z hxy (hy z hz)

theorem sortWith_pairwise (le : α → α → Bool)
    (htot : ∀ a b, le a b = true ∨ le b a = true)
    (htrans : ∀ a b c, le a b = true → le b c = true → le a c = true)
    (l : List α) :
    (sortWith le l).Pairwise (fun a b => le a b = true) := by
  suffices h : ∀ (l acc : List α), acc.Pairwise (fun a b => le a b = true) →
      (l.foldl (fun acc x => insertSorted le x acc) acc).Pairwise (fun a b => le a b = true) by
    exact h l [] (by simp)
  intro l
  induction l with
  | nil => exact fun acc h => h
  | cons x xs ih =>
    intro acc h
    simp only [List.foldl_cons]
    exact ih _ (insertSorted_pairwise le htot htrans x acc h)

theorem insertSorted_filter_neg (le : α → α → Bool) (pq : α → Bool) (x : α)
    (hx : pq x = false) :
    ∀ l : List α, (insertSorted le x l).filter pq = l.filter pq := by
  intro l
  induction l with
  | nil => simp [insertSorted, hx]
  | cons y ys ih =>
    unfold insertSorted
    split
    · cases hpq : pq y <;> simp [List.filter_cons, hpq, ih]
    · simp [List.filter_cons, hx]

theorem insertSorted_filter_pos (le : α → α → Bool) (pq : α → Bool)
    (htrans : ∀ a b c, le a b = true → le b c = true → le a c = true)
    (hsep : ∀ a b, pq a = true → le b a = false → pq b = false)
    (x : α) (hx : pq x = true) :
    ∀ l : List α, l.Pairwise (fun a b => le a b = true) →
      (insertSorted le x l).filter pq = l.filter pq ++ [x] := by
  intro l
  induction l with
  | nil => intro _; simp [insertSorted, hx]
  | cons y ys ih =>
    intro h
    rw [List.pairwise_cons] at h
    obtain ⟨hy, hys⟩ := h
    unfold insertSorted
    split
    · cases hpq : pq y <;> simp [List.filter_cons, hpq, ih hys]
    · next hle =>
      have hle2 : le y x = false := by
        cases hyx : le y x
        · rfl
        · exact absurd hyx hle
      have hpy : pq y = false := hsep x y hx hle2
      have hnil : (y :: ys).filter pq = [] := by
        rw [List.filter_eq_nil_iff]
        intro a ha
        rcases List.mem_cons.1 ha with rfl | ha2
        · simp [hpy]
        · have hya := hy a ha2
          have hax : le a x = false := by
            cases hax : le a x
            · rfl
            · exact absurd (htrans y a x hya hax) (by simp [hle2])
          simp [hsep x a hx hax]
      simp [List.filter_cons, hx, hnil]

theorem sortWith_filter (le : α → α → Bool) (pq : α → Bool)
    (htot : ∀ a b, le a b = true ∨ le b a = true)
    (htrans : ∀ a b c, le a b = true → le b c = true → le a c = true)
    (hsep : ∀ a b, pq a = true → le b a = false → pq b = false)
    (l : List α) :
    (sortWith le l).filter pq = l.filter pq := by
  suffices h : ∀ (l acc : List α), acc.Pairwise (fun a b => le a b = true) →
      (l.foldl (fun acc x => insertSorted le x acc) acc).filter pq =
        acc.filter pq ++ l.filter pq by
    simpa [sortWith] using h l [] (by simp)
  intro l
  induction l with
  | nil => simp
  | cons x xs ih =>
    intro acc hacc
    simp only [List.foldl_cons]
    rw [ih _ (insertSorted_pairwise le htot htrans x acc hacc)]
    cases hx : pq x
    · rw [insertSorted_filter_neg le pq x hx acc]
      simp [List.filter_cons, hx]
    · rw [insertSorted_filter_pos le pq htrans hsep x hx acc hacc]
      simp [List.filter_cons, hx]

/-! ## `auto_runner.parse_selection` -/

/-- Model of `selection.replace(' ', '')`. -/
def pyRemoveSpaces (s : PyStr) : PyStr := s.filter (fun c => c != ' ')

/-- Model of Python `int(s)` restricted to the decimal-digit strings the
selector grammar deals in: all-digit, non-empty. -/
def pyDigits? (s : PyStr) : Option Nat :=
  if !s.isEmpty && s.all Char.isDigit then
    some (s.foldl (fun n c => 10 * n + (c.toNat - 48)) 0)
  else none

/-- The message raised for a bad range token (both the reversed/out-of-bounds
check and a parse error funnel through the bare `except` of the source). -/
def rangeError (part : PyStr) : PyStr := "无法解析范围: ".data ++ part

/-- The message raised for a bad single-number token. -/
def numberError (part : PyStr) : PyStr := "无法解析序号: ".data ++ part

/-- One iteration of the token loop in `auto_runner.parse_selection`
(lines 588-614): empty tokens are skipped; a token containing `-` is parsed
as `start-end` with `1 ≤ start`, `end ≤ max_num`, `start ≤ end` required and
`range(start-1, end)` added to the set; otherwise the token is a single
number `num` with `1 ≤ num ≤ max_num`, adding `num-1`. -/
def parse_token (maxNum : Nat) (acc : List Nat) (part : PyStr) :
    Except PyStr (List Nat) :=
  if part.isEmpty then .ok acc
  else if part.contains '-' then
    match pySplitChar '-' part with
    | [s, e] =>
      match pyDigits? s, pyDigits? e with
      | some start, some stop =>
        if start < 1 || maxNum < stop || stop < start then .error (rangeError part)
        else .ok (setUnionList acc (List.range' (start - 1) (stop - (start - 1))))
      | _, _ => .error (rangeError part)
    | _ => .error (rangeError part)
  else
    match pyDigits? part with
    | some num =>
      if num < 1 || maxNum < num then .error (numberError part)
      else .ok (setInsert (num - 1) acc)
    | none => .error (numberError part)

/-- The `for part in parts` loop of `parse_selection`: the first bad token
aborts the whole parse. -/
def parse_parts (maxNum : Nat) (acc : List Nat) :
    List PyStr → Except PyStr (List Nat)
  | [] => .ok acc
  | p :: ps =>
    match parse_token maxNum acc p with
    | .ok acc2 => parse_parts maxNum acc2 ps
    | .error e => .error e

/-- Embedding of `auto_runner.parse_selection` (lines 588-614): strip spaces,
split on commas, fold the token loop, and return `sorted(list(indices))`. -/
def parse_selection (selection : PyStr) (maxNum : Nat) :
    Except PyStr (List Nat) :=
  match parse_parts maxNum [] (pySplitChar ',' (pyRemoveSpaces selection)) with
  | .ok s => .ok (sortWith (fun a b => decide (a ≤ b)) s)
  | .error e => .error e

/-- Spec-side grammar: a token is empty, a single 1-based integer within
`[1, maxNum]`, or an inclusive range `a-b` with `1 ≤ a ≤ b ≤ maxNum`. -/
def TokenOk (maxNum : Nat) (part : PyStr) : Prop :=
  part = []
  ∨ (part.contains '-' = false ∧
      ∃ n, pyDigits? part = some n ∧ 1 ≤ n ∧ n ≤ maxNum)
  ∨ (part.contains '-' = true ∧
      ∃ s e a b, pySplitChar '-' part = [s, e] ∧ pyDigits? s = some a ∧
        pyDigits? e = some b ∧ 1 ≤ a ∧ a ≤ b ∧ b ≤ maxNum)

/-- Spec-side denotation of a well-formed token as 0-based indices: a single
integer `n` denotes `[n-1]`, a range `a-b` denotes `[a-1, ..., b-1]`. -/
def tokenIndices (part : PyStr) : List Nat :=
  if part.isEmpty then []
  else if part.contains '-' then
    match pySplitChar '-' part with
    | [s, e] =>
      match pyDigits? s, pyDigits? e with
      | some a, some b => List.range' (a - 1) (b - (a - 1))
      | _, _ => []
    | _ => []
  else
    match pyDigits? part with
    | some n => [n - 1]
    | none => []

theorem parse_token_spec (maxNum : Nat) (acc : List Nat) (p : PyStr) :
    (TokenOk maxNum p ∧
      parse_token maxNum acc p = .ok (setUnionList acc (tokenIndices p)))
  ∨ (¬ TokenOk maxNum p ∧
      (parse_token maxNum acc p = .error (rangeError p) ∨
       parse_token maxNum acc p = .error (numberError p))) := by
  by_cases hemp : p.isEmpty
  · left
    refine ⟨Or.inl (List.isEmpty_iff.mp hemp), ?_⟩
    simp [parse_token, tokenIndices, hemp, setUnionList]
  · have hne : p ≠ [] := fun h => hemp (List.isEmpty_iff.mpr h)
    by_cases hdash : p.contains '-'
    · have hmem : '-' ∈ p := by simpa using hdash
      rcases hsplit : pySplitChar '-' p with _ | ⟨s, _ | ⟨e, _ | _⟩⟩
      · right
        constructor
        · rintro (h | ⟨h, _⟩ | ⟨_, s2, e2, _, _, h, _⟩)
          · exact hne h
          · simp at h; exact h hmem
          · rw [hsplit] at h; exact absurd h (by simp)
        · left; simp [parse_token, hemp, hmem, hsplit]
      · right
        constructor
        · rintro (h | ⟨h, _⟩ | ⟨_, s2, e2, _, _, h, _⟩)
          · exact hne h
          · simp at h; exact h hmem
          · rw [hsplit] at h; exact absurd h (by simp)
        · left; simp [parse_token, hemp, hmem, hsplit]
      · rcases hs : pyDigits? s with _ | a
        · right
          constructor
          · rintro (h | ⟨h, _⟩ | ⟨_, s2, e2, a2, b2, h, h2, _⟩)
            · exact hne h
            · simp at h; exact h hmem
            · rw [hsplit] at h
              obtain ⟨rfl, rfl⟩ : s = s2 ∧ e = e2 := by simpa using h
              rw [hs] at h2; exact absurd h2 (by simp)
          · left; simp [parse_token, hemp, hmem, hsplit, hs]
        · rcases he : pyDigits? e with _ | b
          · right
            constructor
            · rintro (h | ⟨h, _⟩ | ⟨_, s2, e2, a2, b2, h, h2, h3, _⟩)
              · exact hne h
              · simp at h; exact h hmem
              · rw [hsplit] at h
                obtain ⟨rfl, rfl⟩ : s = s2 ∧ e = e2 := by simpa using h
                rw [he] at h3; exact absurd h3 (by simp)
            · left; simp [parse_token, hemp, hmem, hsplit, hs, he]
          · by_cases hrange : a < 1 ∨ maxNum < b ∨ b < a
            · right
              constructor
              · rintro (h | ⟨h, _⟩ | ⟨_, s2, e2, a2, b2, h, h2, h3, h4, h5, h6⟩)
                · exact hne h
                · simp at h; exact h hmem
                · rw [hsplit] at h
                  obtain ⟨rfl, rfl⟩ : s = s2 ∧ e = e2 := by simpa using h
                  rw [hs] at h2
                  rw [he] at h3
                  obtain rfl : a = a2 := by simpa using h2
                  obtain rfl : b = b2 := by simpa using h3
                  omega
              · left
                have hcond : ((a = 0 ∨ maxNum < b) ∨ b < a) = True := eq_true (by omega)
                simp [parse_token, hemp, hmem, hsplit, hs, he, hcond]
            · left
              push_neg at hrange
              constructor
              · exact Or.inr (Or.inr ⟨hdash, s, e, a, b, hsplit, hs, he, hrange.1,
                  by omega, hrange.2.1⟩)
              · have hcond : ((a = 0 ∨ maxNum < b) ∨ b < a) = False := eq_false (by omega)
                simp [parse_token, tokenIndices, hemp, hmem, hsplit, hs, he, hcond]
      · right
        constructor
        · rintro (h | ⟨h, _⟩ | ⟨_, s2, e3, _, _, h, _⟩)
          · exact hne h
          · simp at h; exact h hmem
          · rw [hsplit] at h; exact absurd h (by simp)
        · left; simp [parse_token, hemp, hmem, hsplit]
    · have hdash2 : p.contains '-' = false := by
        cases h : p.contains '-'
        · rfl
        · exact absurd h hdash
      have hmem : '-' ∉ p := by simpa using hdash2
      rcases hn : pyDigits? p with _ | num
      · right
        constructor
        · rintro (h | ⟨_, n, h2, _⟩ | ⟨h, _⟩)
          · exact hne h
          · rw [hn] at h2; exact absurd h2 (by simp)
          · rw [hdash2] at h; exact absurd h (by simp)
        · right; simp [parse_token, hemp, hmem, hn]
      · by_cases hr : num < 1 ∨ maxNum < num
        · right
          constructor
          · rintro (h | ⟨_, n, h2, h3, h4⟩ | ⟨h, _⟩)
            · exact hne h
            · rw [hn] at h2
              obtain rfl : num = n := by simpa using h2
              omega
            · rw [hdash2] at h; exact absurd h (by simp)
          · right
            have hcond : (num = 0 ∨ maxNum < num) = True := eq_true (by omega)
            simp [parse_token, hemp, hmem, hn, hcond]
        · left
          push_neg at hr
          constructor
          · exact Or.inr (Or.inl ⟨hdash2, num, hn, hr.1, hr.2⟩)
          · have hcond : (num = 0 ∨ maxNum < num) = False := eq_false (by omega)
            simp [parse_token, tokenIndices, hemp, hmem, hn, hcond, setUnionList]

instance {ε α : Type _} [DecidableEq ε] [DecidableEq α] : DecidableEq (Except ε α) :=
  fun a b =>
    match a, b with
    | .ok x, .ok y => if h : x = y then isTrue (by rw [h]) else isFalse (by simp [h])
    | .error x, .error y => if h : x = y then isTrue (by rw [h]) else isFalse (by simp [h])
    | .ok _, .error _ => isFalse (by simp)
    | .error _, .ok _ => isFalse (by simp)

theorem parse_parts_spec (maxNum : Nat) :
    ∀ (parts : List PyStr) (acc : List Nat),
    ((∀ p ∈ parts, TokenOk maxNum p) ∧
      parse_parts maxNum acc parts =
        .ok (parts.foldl (fun s p => setUnionList s (tokenIndices p)) acc))
  ∨ (∃ p ∈ parts, ¬ TokenOk maxNum p ∧
      (parse_parts maxNum acc parts = .error (rangeError p) ∨
       parse_parts maxNum acc parts = .error (numberError p))) := by
  intro parts
  induction parts with
  | nil =>
    intro acc
    left
    exact ⟨by simp, by simp [parse_parts]⟩
  | cons p ps ih =>
    intro acc
    rcases parse_token_spec maxNum acc p with ⟨hok, heq⟩ | ⟨hbad, herr⟩
    · rcases ih (setUnionList acc (tokenIndices p)) with ⟨hall, heq2⟩ | ⟨q, hq, hbadq, herr⟩
      · left
        refine ⟨?_, ?_⟩
        · intro x hx
          rcases List.mem_cons.1 hx with rfl | hx2
          · exact hok
          · exact hall x hx2
        · simp only [parse_parts, heq, List.foldl_cons]
          exact heq2
      · right
        refine ⟨q, List.mem_cons_of_mem p hq, hbadq, ?_⟩
        simp only [parse_parts, heq]
        exact herr
    · right
      refine ⟨p, List.mem_cons_self p ps, hbad, ?_⟩
      rcases herr with h | h
      · left; simp only [parse_parts, h]
      · right; simp only [parse_parts, h]

theorem mem_foldl_setUnionList (parts : List PyStr) :
    ∀ (acc : List Nat) (y : Nat),
      y ∈ parts.foldl (fun s p => setUnionList s (tokenIndices p)) acc ↔
        y ∈ acc ∨ ∃ p ∈ parts, y ∈ tokenIndices p := by
  induction parts with
  | nil => simp
  | cons p ps ih =>
    intro acc y
    simp only [List.foldl_cons]
    rw [ih, mem_setUnionList, List.exists_mem_cons_iff]
    tauto

theorem nodup_foldl_setUnionList (parts : List PyStr) :
    ∀ acc : List Nat, acc.Nodup →
      (parts.foldl (fun s p => setUnionList s (tokenIndices p)) acc).Nodup := by
  induction parts with
  | nil => exact fun acc h => h
  | cons p ps ih =>
    intro acc h
    simp only [List.foldl_cons]
    exact ih _ (nodup_setUnionList _ acc h)

theorem tokenIndices_bound (maxNum : Nat) (p : PyStr) (h : TokenOk maxNum p) :
    ∀ i ∈ tokenIndices p, i < maxNum := by
  rcases h with rfl | ⟨hdash, n, hn, h1, h2⟩ | ⟨hdash, s, e, a, b, hsplit, hs, he, h1, h2, h3⟩
  · simp [tokenIndices]
  · intro i hi
    by_cases hemp : p.isEmpty
    · rw [List.isEmpty_iff] at hemp
      rw [hemp] at hn
      simp [pyDigits?] at hn
    · have hmem : '-' ∉ p := by simpa using hdash
      simp [tokenIndices, hemp, hmem, hn] at hi
      omega
  · intro i hi
    by_cases hemp : p.isEmpty
    · rw [List.isEmpty_iff] at hemp
      rw [hemp] at hsplit
      simp [pySplitChar] at hsplit
    · have hmem : '-' ∈ p := by simpa using hdash
      simp [tokenIndices, hemp, hmem, hsplit, hs, he, List.mem_range'_1] at hi
      omega

/-- C3: the selector accepts comma-separated tokens that are single 1-based
integers in `[1, N]` or inclusive ranges `a-b` with `a ≤ b` in bounds,
collapses duplicates, and returns the sorted deduplicated 0-based indices;
any malformed token fails the whole parse with a message naming that token
and no partial result.  The four concrete conjuncts are the spec's examples;
the two quantified conjuncts give the general soundness (a successful parse
is sorted, duplicate-free, in bounds, all tokens well-formed, and is exactly
the set denoted by the tokens) and the failure behaviour. -/
theorem claim_C3_selection_grammar :
    parse_selection "1,3-5,7".data 10 = .ok [0, 2, 3, 4, 6]
  ∧ parse_selection "0".data 5 = .error (numberError "0".data)
  ∧ parse_selection "3-2".data 10 = .error (rangeError "3-2".data)
  ∧ parse_selection "1, 3".data 10 = .ok [0, 2]
  ∧ (∀ (sel : PyStr) (maxNum : Nat) (l : List Nat),
      parse_selection sel maxNum = .ok l →
        l.Pairwise (· ≤ ·) ∧ l.Nodup ∧ (∀ i ∈ l, i < maxNum)
      ∧ (∀ p ∈ pySplitChar ',' (pyRemoveSpaces sel), TokenOk maxNum p)
      ∧ (∀ i, i ∈ l ↔ ∃ p ∈ pySplitChar ',' (pyRemoveSpaces sel), i ∈ tokenIndices p))
  ∧ (∀ (sel : PyStr) (maxNum : Nat),
      (∃ p ∈ pySplitChar ',' (pyRemoveSpaces sel), ¬ TokenOk maxNum p) →
        ∃ q ∈ pySplitChar ',' (pyRemoveSpaces sel), ¬ TokenOk maxNum q ∧
          (parse_selection sel maxNum = .error (rangeError q) ∨
           parse_selection sel maxNum = .error (numberError q))) := by
  refine ⟨by decide, by decide, by decide, by decide, ?_, ?_⟩
  · intro sel maxNum l hok
    rcases parse_parts_spec maxNum (pySplitChar ',' (pyRemoveSpaces sel)) [] with
      ⟨hall, heq⟩ | ⟨q, hq, hbadq, herr⟩
    · simp only [parse_selection, heq] at hok
      have hl := Except.ok.inj hok
      subst hl
      have htot : ∀ a b : Nat, (fun a b => decide (a ≤ b)) a b = true ∨
          (fun a b => decide (a ≤ b)) b a = true := by
        intro a b
        rcases Nat.le_total a b with h | h
        · exact Or.inl (decide_eq_true h)
        · exact Or.inr (decide_eq_true h)
      have htrans : ∀ a b c : Nat, (fun a b => decide (a ≤ b)) a b = true →
          (fun a b => decide (a ≤ b)) b c = true →
          (fun a b => decide (a ≤ b)) a c = true := by
        intro a b c h1 h2
        exact decide_eq_true (Nat.le_trans (of_decide_eq_true h1) (of_decide_eq_true h2))
      have hperm := sortWith_perm (fun a b : Nat => decide (a ≤ b))
        ((pySplitChar ',' (pyRemoveSpaces sel)).foldl
          (fun s p => setUnionList s (tokenIndices p)) [])
      have hmem : ∀ i, (i ∈ sortWith (fun a b : Nat => decide (a ≤ b))
          ((pySplitChar ',' (pyRemoveSpaces sel)).foldl
            (fun s p => setUnionList s (tokenIndices p)) [])) ↔
          ∃ p ∈ pySplitChar ',' (pyRemoveSpaces sel), i ∈ tokenIndices p := by
        intro i
        rw [hperm.mem_iff, mem_foldl_setUnionList]
        simp
      refine ⟨?_, ?_, ?_, hall, hmem⟩
      · exact (sortWith_pairwise _ htot htrans _).imp (fun h => of_decide_eq_true h)
      · exact hperm.nodup_iff.mpr (nodup_foldl_setUnionList _ [] (by simp))
      · intro i hi
        rcases (hmem i).1 hi with ⟨p, hp, hip⟩
        exact tokenIndices_bound maxNum p (hall p hp) i hip
    · exfalso
      rcases herr with h | h <;> simp only [parse_selection, h] at hok <;> exact absurd hok (by simp)
  · intro sel maxNum hbad
    rcases parse_parts_spec maxNum (pySplitChar ',' (pyRemoveSpaces sel)) [] with
      ⟨hall, _⟩ | ⟨q, hq, hbadq, herr⟩
    · obtain ⟨p, hp, hbadp⟩ := hbad
      exact absurd (hall p hp) hbadp
    · refine ⟨q, hq, hbadq, ?_⟩
      rcases herr with h | h
      · left; simp only [parse_selection, h]
      · right; simp only [parse_selection, h]

/-- Witness for C3: the quantified soundness direction applied to the concrete
selector `"2,4"` with five buckets, whose parse succeeds with `[1, 3]`. -/
theorem claim_C3_selection_grammar_witness :
    parse_selection "2,4".data 5 = .ok [1, 3]
  ∧ (([1, 3] : List Nat).Pairwise (· ≤ ·) ∧ ([1, 3] : List Nat).Nodup
      ∧ (∀ i ∈ ([1, 3] : List Nat), i < 5)
      ∧ (∀ p ∈ pySplitChar ',' (pyRemoveSpaces "2,4".data), TokenOk 5 p)
      ∧ (∀ i, i ∈ ([1, 3] : List Nat) ↔
          ∃ p ∈ pySplitChar ',' (pyRemoveSpaces "2,4".data), i ∈ tokenIndices p)) :=
  ⟨by decide, claim_C3_selection_grammar.2.2.2.2.1 "2,4".data 5 [1, 3] (by decide)⟩

/-! ## `auto_runner.process_folder` and the run loop of `main`

A document is abstracted to the two bits the control flow depends on:
`hasArtifact` is `json_path.exists()` (the idempotency signal) and `ok` is
whether the body of the per-document `try` block (text pull, LLM call, JSON
parse, artifact write, CSV appends) completes without raising.  The CSV append
to the combined table records `str(global_index)` for each success; the
`recorded` field collects those values in order.  `attempted` is
`len(to_process)`: the number of documents entering the per-document loop
(each of which is the only place an inference call can happen). -/

structure Doc where
  hasArtifact : Bool
  ok : Bool
deriving DecidableEq

structure Stats where
  success : Nat
  skip : Nat
  fail : Nat
deriving DecidableEq

structure FolderResult where
  stats : Stats
  nextGlobalIndex : Nat
  recorded : List Nat
  attempted : Nat
deriving DecidableEq

/-- Embedding of `auto_runner.process_folder` (lines 785-893): the eligibility
pass builds `to_process` and counts skips, then the loop increments `success`
and the global index only when the document's try block succeeds, and `fail`
otherwise. -/
def process_folder (overwrite : Bool) (docs : List Doc)
    (global_index_start : Nat) : FolderResult :=
  let to_process := docs.filter (fun d => overwrite || !d.hasArtifact)
  let skipped := (docs.filter (fun d => !(overwrite || !d.hasArtifact))).length
  let r := to_process.foldl
    (fun (st : Stats × Nat × List Nat) d =>
      if d.ok then
        ({ st.1 with success := st.1.success + 1 }, st.2.1 + 1, st.2.2 ++ [st.2.1])
      else
        ({ st.1 with fail := st.1.fail + 1 }, st.2.1, st.2.2))
    (⟨0, skipped, 0⟩, global_index_start, [])
  ⟨r.1, r.2.1, r.2.2, to_process.length⟩

structure RunResult where
  stats : Stats
  nextGlobalIndex : Nat
  recorded : List Nat
deriving DecidableEq

def addStats (a b : Stats) : Stats :=
  ⟨a.success + b.success, a.skip + b.skip, a.fail + b.fail⟩

/-- One iteration of the `for idx in selected_indices` loop of
`auto_runner.main` (lines 950-971): a bucket with no pending document is
skipped entirely when not overwriting (`folder.pending` is the scan-time count
of documents without an artifact); otherwise `process_folder` runs from the
current global index and its returned next index is carried forward. -/
def runStep (overwrite : Bool) (acc : RunResult) (docs : List Doc) : RunResult :=
  let pending := (docs.filter (fun d => !d.hasArtifact)).length
  if !overwrite && pending == 0 then acc
  else
    let r := process_folder overwrite docs acc.nextGlobalIndex
    ⟨addStats acc.stats r.stats, r.nextGlobalIndex, acc.recorded ++ r.recorded⟩

/-- Embedding of the processing loop of `auto_runner.main` (lines 946-971):
`global_index = 1` seeds the run, and the loop folds over the selected buckets
in order. -/
def run_folders (folders : List (List Doc)) (overwrite : Bool) : RunResult :=
  folders.foldl (runStep overwrite) ⟨⟨0, 0, 0⟩, 1, []⟩

theorem process_folder_loop (l : List Doc) :
    ∀ (s k f g : Nat) (recs : List Nat),
      l.foldl
        (fun (st : Stats × Nat × List Nat) d =>
          if d.ok then
            ({ st.1 with success := st.1.success + 1 }, st.2.1 + 1, st.2.2 ++ [st.2.1])
          else
            ({ st.1 with fail := st.1.fail + 1 }, st.2.1, st.2.2))
        (⟨s, k, f⟩, g, recs) =
      (⟨s + (l.filter (fun d => d.ok)).length, k,
        f + (l.filter (fun d => !d.ok)).length⟩,
       g + (l.filter (fun d => d.ok)).length,
       recs ++ List.range' g (l.filter (fun d => d.ok)).length) := by
  induction l with
  | nil => simp
  | cons d ds ih =>
    intro s k f g recs
    simp only [List.foldl_cons]
    cases hok : d.ok
    · simp only [hok, Bool.false_eq_true, if_false]
      rw [ih]
      simp [List.filter_cons, hok]
      all_goals omega
    · simp only [hok, if_true]
      rw [ih]
      simp [List.filter_cons, hok, List.range'_succ, List.append_assoc]
      all_goals omega


/-- Per-folder success count (documents whose try block succeeds among those
eligible for processing). -/
def folderSucc (overwrite : Bool) (docs : List Doc) : Nat :=
  ((docs.filter (fun d => overwrite || !d.hasArtifact)).filter (fun d => d.ok)).length

/-- Per-folder skip count (documents with an artifact, when not forced). -/
def folderSkip (overwrite : Bool) (docs : List Doc) : Nat :=
  (docs.filter (fun d => !(overwrite || !d.hasArtifact))).length

/-- Per-folder failure count. -/
def folderFail (overwrite : Bool) (docs : List Doc) : Nat :=
  ((docs.filter (fun d => overwrite || !d.hasArtifact)).filter (fun d => !d.ok)).length

/-- Per-folder count of documents entering the processing loop. -/
def folderAttempt (overwrite : Bool) (docs : List Doc) : Nat :=
  (docs.filter (fun d => overwrite || !d.hasArtifact)).length

theorem process_folder_spec (overwrite : Bool) (docs : List Doc) (g : Nat) :
    process_folder overwrite docs g =
      ⟨⟨folderSucc overwrite docs, folderSkip overwrite docs, folderFail overwrite docs⟩,
       g + folderSucc overwrite docs,
       List.range' g (folderSucc overwrite docs),
       folderAttempt overwrite docs⟩ := by
  unfold process_folder folderSucc folderSkip folderFail folderAttempt
  simp only []
  rw [process_folder_loop]
  simp

theorem runStep_spec (overwrite : Bool) (acc : RunResult) (docs : List Doc) :
    runStep overwrite acc docs =
      if (!overwrite && ((docs.filter (fun d => !d.hasArtifact)).length == 0)) = true then acc
      else
        ⟨addStats acc.stats
           ⟨folderSucc overwrite docs, folderSkip overwrite docs, folderFail overwrite docs⟩,
         acc.nextGlobalIndex + folderSucc overwrite docs,
         acc.recorded ++ List.range' acc.nextGlobalIndex (folderSucc overwrite docs)⟩ := by
  unfold runStep
  rw [process_folder_spec]

theorem folderSucc_of_skipped (overwrite : Bool) (docs : List Doc)
    (hov : overwrite = false)
    (hpend : docs.filter (fun d => !d.hasArtifact) = []) :
    folderSucc overwrite docs = 0 := by
  unfold folderSucc
  rw [hov]
  simp only [Bool.false_or, hpend]
  simp

theorem run_folders_loop (overwrite : Bool) :
    ∀ (folders : List (List Doc)) (acc : RunResult),
      (folders.foldl (runStep overwrite) acc).stats.success =
          acc.stats.success + (folders.map (folderSucc overwrite)).sum
    ∧ (folders.foldl (runStep overwrite) acc).nextGlobalIndex =
          acc.nextGlobalIndex + (folders.map (folderSucc overwrite)).sum
    ∧ (folders.foldl (runStep overwrite) acc).recorded =
          acc.recorded ++ List.range' acc.nextGlobalIndex (folders.map (folderSucc overwrite)).sum := by
  intro folders
  induction folders with
  | nil => intro acc; simp
  | cons docs fs ih =>
    intro acc
    simp only [List.foldl_cons, List.map_cons, List.sum_cons, runStep_spec]
    by_cases hskip : (!overwrite && ((docs.filter (fun d => !d.hasArtifact)).length == 0)) = true
    · have hov : overwrite = false := by
        cases hvo : overwrite
        · rfl
        · rw [hvo] at hskip; simp at hskip
      have hall : ∀ d ∈ docs, d.hasArtifact = true := by
        rw [hov] at hskip
        simpa using hskip
      have hpend : docs.filter (fun d => !d.hasArtifact) = [] := by
        rw [List.filter_eq_nil_iff]
        intro a ha
        simp [hall a ha]
      have hzero : folderSucc overwrite docs = 0 := folderSucc_of_skipped overwrite docs hov hpend
      rw [if_pos hskip, hzero]
      rcases ih acc with ⟨h1, h2, h3⟩
      simpa using ⟨h1, h2, h3⟩
    · rw [if_neg hskip]
      rcases ih ⟨addStats acc.stats
           ⟨folderSucc overwrite docs, folderSkip overwrite docs, folderFail overwrite docs⟩,
         acc.nextGlobalIndex + folderSucc overwrite docs,
         acc.recorded ++ List.range' acc.nextGlobalIndex (folderSucc overwrite docs)⟩
        with ⟨h1, h2, h3⟩
      dsimp only at h1 h2 h3
      refine ⟨?_, ?_, ?_⟩
      · rw [h1]
        simp [addStats]
        omega
      · rw [h2]
        omega
      · rw [h3, List.append_assoc]
        have hr := List.range'_append acc.nextGlobalIndex (folderSucc overwrite docs)
          ((fs.map (folderSucc overwrite)).sum) 1
        simp only [Nat.one_mul] at hr
        rw [hr, Nat.add_comm ((fs.map (folderSucc overwrite)).sum) (folderSucc overwrite docs)]

/-- C1: a run seeds the global counter at 1; the global index recorded in the
combined CSV for the k-th successfully persisted document of the run is
exactly k (the recorded trace is `[1, 2, ..., total_success]`); the counter
advances by exactly the number of successes of each folder (so by one per
success and not at all for skipped or failed documents) and is carried
unchanged across bucket boundaries. -/
theorem claim_C1_global_index_monotonic (folders : List (List Doc)) (overwrite : Bool) :
    (run_folders folders overwrite).recorded =
      List.range' 1 (run_folders folders overwrite).stats.success
  ∧ (run_folders folders overwrite).nextGlobalIndex =
      1 + (run_folders folders overwrite).stats.success
  ∧ (∀ k : Nat, (run_folders folders overwrite).recorded[k]? =
      if k < (run_folders folders overwrite).stats.success then some (k + 1) else none)
  ∧ (∀ (docs : List Doc) (ov : Bool) (g : Nat),
      (process_folder ov docs g).nextGlobalIndex =
        g + (process_folder ov docs g).stats.success
      ∧ (process_folder ov docs g).recorded =
        List.range' g (process_folder ov docs g).stats.success) := by
  rcases run_folders_loop overwrite folders ⟨⟨0, 0, 0⟩, 1, []⟩ with ⟨h1, h2, h3⟩
  dsimp only at h1 h2 h3
  simp only [Nat.zero_add, List.nil_append] at h1 h2 h3
  have e1 : (run_folders folders overwrite).stats.success =
      (folders.map (folderSucc overwrite)).sum := by
    unfold run_folders
    exact h1
  have e2 : (run_folders folders overwrite).nextGlobalIndex =
      1 + (folders.map (folderSucc overwrite)).sum := by
    unfold run_folders
    exact h2
  have e3 : (run_folders folders overwrite).recorded =
      List.range' 1 (folders.map (folderSucc overwrite)).sum := by
    unfold run_folders
    exact h3
  refine ⟨?_, ?_, ?_, ?_⟩
  · rw [e3, e1]
  · rw [e2, e1]
  · intro k
    rw [e3, e1]
    by_cases hk : k < (folders.map (folderSucc overwrite)).sum
    · rw [if_pos hk]
      rw [List.getElem?_range' 1 1 hk]
      simp [Nat.add_comm]
    · rw [if_neg hk]
      apply List.getElem?_eq_none
      rw [List.length_range']
      omega
  · intro docs ov g
    rw [process_folder_spec]
    exact ⟨rfl, rfl⟩

/-- C2: a bucket all of whose documents already have an artifact, run with
overwrite = false, processes zero documents (`attempted = 0`, hence no
inference call), returns success = 0, fail = 0, skip = bucket total, records
nothing in the combined CSV, and leaves the global index unchanged. -/
theorem claim_C2_idempotent_rerun (docs : List Doc) (g : Nat)
    (h : ∀ d ∈ docs, d.hasArtifact = true) :
    process_folder false docs g = ⟨⟨0, docs.length, 0⟩, g, [], 0⟩ := by
  have hfil : docs.filter (fun d => false || !d.hasArtifact) = [] := by
    rw [List.filter_eq_nil_iff]
    intro d hd
    simp [h d hd]
  have hfil2 : docs.filter (fun d => !(false || !d.hasArtifact)) = docs := by
    rw [List.filter_eq_self]
    intro d hd
    simp [h d hd]
  rw [process_folder_spec]
  unfold folderSucc folderSkip folderFail folderAttempt
  rw [hfil, hfil2]
  simp

/-- A concrete fully-processed bucket for the C2 witness. -/
def demoProcessedBucket : List Doc := [⟨true, true⟩, ⟨true, false⟩]

/-- Witness for C2 at a concrete fully-processed two-document bucket, with the
global index starting at 5. -/
theorem claim_C2_idempotent_rerun_witness :
    (∀ d ∈ demoProcessedBucket, d.hasArtifact = true)
  ∧ process_folder false demoProcessedBucket 5 = ⟨⟨0, 2, 0⟩, 5, [], 0⟩ :=
  ⟨by decide, claim_C2_idempotent_rerun demoProcessedBucket 5 (by decide)⟩

/-! ## `auto_runner.scan_folders`

The file system is abstracted to data: the entries of `PDF_DIR.iterdir()`,
each carrying the two `pathlib` predicates the code consults (`is_file`,
`is_dir`), its `suffix`, and — for directories — the child files with their
own suffixes and whether the mirrored JSON artifact exists.  Python's
`sorted(..., key=lambda x: x.name)` compares names lexicographically by code
point, modelled by `lexLt`. -/

/-- Model of Python `str.lower()` (ASCII case folding, which is all the
`.pdf` comparison needs). -/
def pyLower (s : PyStr) : PyStr := s.map Char.toLower

/-- Code-point lexicographic strict order on Python strings. -/
def lexLt : PyStr → PyStr → Bool
  | [], [] => false
  | [], _ :: _ => true
  | _ :: _, [] => false
  | a :: as2, b :: bs => if a = b then lexLt as2 bs else decide (a.toNat < b.toNat)

theorem charToNat_inj {a b : Char} (h : a.toNat = b.toNat) : a = b :=
  Char.eq_of_val_eq (UInt32.eq_of_val_eq (Fin.ext h))

theorem lexLt_asymm : ∀ a b : PyStr, lexLt a b = true → lexLt b a = false := by
  intro a
  induction a with
  | nil =>
    intro b _
    cases b with
    | nil => rfl
    | cons c cs => rfl
  | cons c cs ih =>
    intro b h
    cases b with
    | nil => exact absurd h (by simp [lexLt])
    | cons d ds =>
      by_cases hcd : c = d
      · subst hcd
        simp only [lexLt, if_pos rfl] at h ⊢
        exact ih ds h
      · simp only [lexLt, if_neg hcd] at h
        have hdc : ¬ d = c := fun h2 => hcd h2.symm
        simp only [lexLt, if_neg hdc]
        simp at h ⊢
        omega

theorem lexLt_trichotomy : ∀ a b : PyStr, lexLt a b = true ∨ a = b ∨ lexLt b a = true := by
  intro a
  induction a with
  | nil =>
    intro b
    cases b with
    | nil => exact Or.inr (Or.inl rfl)
    | cons c cs => exact Or.inl rfl
  | cons c cs ih =>
    intro b
    cases b with
    | nil => exact Or.inr (Or.inr rfl)
    | cons d ds =>
      by_cases hcd : c = d
      · subst hcd
        rcases ih ds with h | h | h
        · exact Or.inl (by simp [lexLt, h])
        · exact Or.inr (Or.inl (by rw [h]))
        · exact Or.inr (Or.inr (by simp [lexLt, h]))
      · have hne : c.toNat ≠ d.toNat := fun h => hcd (charToNat_inj h)
        have hdc : ¬ d = c := fun h2 => hcd h2.symm
        rcases Nat.lt_or_ge c.toNat d.toNat with h | h
        · exact Or.inl (by simp [lexLt, if_neg hcd, h])
        · have h2 : d.toNat < c.toNat := by omega
          exact Or.inr (Or.inr (by simp [lexLt, if_neg hdc, h2]))

theorem lexLt_trans : ∀ a b c : PyStr,
    lexLt a b = true → lexLt b c = true → lexLt a c = true := by
  intro a
  induction a with
  | nil =>
    intro b c hab hbc
    cases b with
    | nil => exact hbc
    | cons d ds =>
      cases c with
      | nil => exact absurd hbc (by simp [lexLt])
      | cons e es => rfl
  | cons x xs ih =>
    intro b c hab hbc
    cases b with
    | nil => exact absurd hab (by simp [lexLt])
    | cons d ds =>
      cases c with
      | nil => exact absurd hbc (by simp [lexLt])
      | cons e es =>
        by_cases hxd : x = d
        · subst hxd
          by_cases hde : x = e
          · subst hde
            simp only [lexLt, if_pos rfl] at hab hbc ⊢
            exact ih ds es hab hbc
          · simp only [lexLt, if_pos rfl] at hab
            simp only [lexLt, if_neg hde] at hbc ⊢
            exact hbc
        · by_cases hde : d = e
          · subst hde
            simp only [lexLt, if_neg hxd] at hab ⊢
            exact hab
          · have hne2 : d.toNat ≠ e.toNat := fun h => hde (charToNat_inj h)
            simp only [lexLt, if_neg hxd] at hab
            simp only [lexLt, if_neg hde] at hbc
            simp at hab hbc
            by_cases hxe : x = e
            · subst hxe
              omega
            · simp only [lexLt, if_neg hxe]
              simp
              omega

structure FileEnt where
  name : PyStr
  isFile : Bool
  suffix : PyStr
  jsonExists : Bool
deriving DecidableEq

structure RootEnt where
  name : PyStr
  isFile : Bool
  isDir : Bool
  suffix : PyStr
  children : List FileEnt
deriving DecidableEq

structure FolderStatus where
  name : PyStr
  total_pdfs : Nat
  processed : Nat
  pending : Nat
  pdf_files : List FileEnt
deriving DecidableEq

/-- The test `f.is_file() and f.suffix.lower() == '.pdf'` applied to a child
of a bucket directory. -/
def isPdfFile (f : FileEnt) : Bool := f.isFile && pyLower f.suffix == ".pdf".data

/-- The test `item.is_file() and item.suffix.lower() == '.pdf'` of the scan
loop, which is what sends a root entry to `root_pdfs`. -/
def isStrayPdf (e : RootEnt) : Bool := e.isFile && pyLower e.suffix == ".pdf".data

/-- Ascending-by-name comparison for sorting child files and folder statuses
(Python `sorted(key=lambda x: x.name)` / `list.sort(key=lambda x: x.name)`). -/
def fileLe (a b : FileEnt) : Bool := !(lexLt b.name a.name)

def statusLe (a b : FolderStatus) : Bool := !(lexLt b.name a.name)

/-- The `FolderStatus` the scan builds for a directory entry: the sorted PDF
children, with `processed` counting those whose mirrored JSON exists and
`pending` the rest. -/
def mkFolderStatus (e : RootEnt) : FolderStatus :=
  let pdf_files := sortWith fileLe (e.children.filter isPdfFile)
  ⟨e.name, pdf_files.length,
   (pdf_files.filter (fun f => f.jsonExists)).length,
   (pdf_files.filter (fun f => !f.jsonExists)).length,
   pdf_files⟩

/-- Python `dict` assignment `folders[folder_name] = folder`: replace in place
if the key exists (keeping its position), else append. -/
def dictUpsert (k : PyStr) (v : FolderStatus) :
    List (PyStr × FolderStatus) → List (PyStr × FolderStatus)
  | [] => [(k, v)]
  | (k2, v2) :: rest =>
    if k2 = k then (k, v) :: rest else (k2, v2) :: dictUpsert k v rest

structure ScanResult where
  folders : List FolderStatus
  root_pdfs : List RootEnt
deriving DecidableEq

/-- One iteration of the `for item in PDF_DIR.iterdir()` loop of
`auto_runner.scan_folders` (lines 393-436). -/
def scanStep (acc : List (PyStr × FolderStatus) × List RootEnt) (item : RootEnt) :
    List (PyStr × FolderStatus) × List RootEnt :=
  if isStrayPdf item then (acc.1, acc.2 ++ [item])
  else if item.isDir then
    if (sortWith fileLe (item.children.filter isPdfFile)).isEmpty then acc
    else (dictUpsert item.name (mkFolderStatus item) acc.1, acc.2)
  else acc

/-- Embedding of `auto_runner.scan_folders`: fold the scan loop over the root
entries, then return the statuses sorted by name, plus the stray root PDFs. -/
def scan_folders (entries : List RootEnt) : ScanResult :=
  let r := entries.foldl scanStep ([], [])
  ⟨sortWith statusLe (r.1.map Prod.snd), r.2⟩

/-- Spec-side: a root entry becomes a bucket exactly when it is not a stray
PDF, is a directory, and holds at least one PDF child. -/
def bucketCandidate (e : RootEnt) : Bool :=
  !(isStrayPdf e) && e.isDir && !((e.children.filter isPdfFile).isEmpty)

theorem dictUpsert_fresh (k : PyStr) (v : FolderStatus) :
    ∀ l : List (PyStr × FolderStatus), (∀ p ∈ l, p.1 ≠ k) →
      dictUpsert k v l = l ++ [(k, v)] := by
  intro l
  induction l with
  | nil => intro _; rfl
  | cons p rest ih =>
    intro h
    rcases p with ⟨k2, v2⟩
    have hne : k2 ≠ k := h (k2, v2) (List.mem_cons_self _ _)
    simp only [dictUpsert, if_neg hne, List.cons_append]
    rw [ih]
    intro q hq
    exact h q (List.mem_cons_of_mem _ hq)

theorem sortWith_isEmpty_iff (le : α → α → Bool) (l : List α) :
    (sortWith le l).isEmpty = l.isEmpty := by
  have hperm := sortWith_perm le l
  cases h : l.isEmpty
  · have : l ≠ [] := by
      cases l
      · simp at h
      · simp
    rcases List.exists_mem_of_ne_nil l this with ⟨x, hx⟩
    have hx2 : x ∈ sortWith le l := hperm.mem_iff.mpr hx
    cases h2 : (sortWith le l).isEmpty
    · rfl
    · rw [List.isEmpty_iff] at h2
      rw [h2] at hx2
      exact absurd hx2 (by simp)
  · rw [List.isEmpty_iff] at h
    subst h
    rw [hperm.eq_nil]
    rfl

theorem statusLe_total : ∀ a b : FolderStatus, statusLe a b = true ∨ statusLe b a = true := by
  intro a b
  unfold statusLe
  cases h : lexLt b.name a.name
  · exact Or.inl rfl
  · right
    rw [lexLt_asymm _ _ h]
    rfl

theorem statusLe_trans : ∀ a b c : FolderStatus,
    statusLe a b = true → statusLe b c = true → statusLe a c = true := by
  intro a b c h1 h2
  unfold statusLe at h1 h2 ⊢
  have h1b : lexLt b.name a.name = false := by simpa using h1
  have h2b : lexLt c.name b.name = false := by simpa using h2
  have hca : lexLt c.name a.name = false := by
    cases hc : lexLt c.name a.name
    · rfl
    · rcases lexLt_trichotomy a.name b.name with h | h | h
      · have h3 := lexLt_trans _ _ _ hc h
        rw [h3] at h2b
        exact absurd h2b (by simp)
      · rw [h] at hc
        rw [hc] at h2b
        exact absurd h2b (by simp)
      · rw [h] at h1b
        exact absurd h1b (by simp)
  simp [hca]

theorem scan_loop :
    ∀ (entries : List RootEnt) (accF : List (PyStr × FolderStatus)) (accS : List RootEnt),
      (entries.map RootEnt.name).Nodup →
      (∀ p ∈ accF, ∀ e ∈ entries, p.1 ≠ e.name) →
      entries.foldl scanStep (accF, accS) =
        (accF ++ (entries.filter bucketCandidate).map (fun e => (e.name, mkFolderStatus e)),
         accS ++ entries.filter isStrayPdf) := by
  intro entries
  induction entries with
  | nil => intro accF accS _ _; simp
  | cons e es ih =>
    intro accF accS hnodup hdisj
    simp only [List.foldl_cons]
    rw [List.map_cons, List.nodup_cons] at hnodup
    obtain ⟨hnotin, hnodup2⟩ := hnodup
    have hdisj2 : ∀ p ∈ accF, ∀ e2 ∈ es, p.1 ≠ e2.name :=
      fun p hp e2 he2 => hdisj p hp e2 (List.mem_cons_of_mem _ he2)
    by_cases hstray : isStrayPdf e = true
    · have hcand : bucketCandidate e = false := by
        unfold bucketCandidate
        rw [hstray]
        rfl
      have hstep : scanStep (accF, accS) e = (accF, accS ++ [e]) := by
        unfold scanStep
        rw [if_pos hstray]
      rw [hstep, ih accF (accS ++ [e]) hnodup2 hdisj2]
      simp [List.filter_cons, hcand, hstray, List.append_assoc]
    · have hstray2 : isStrayPdf e = false := by
        cases h : isStrayPdf e
        · rfl
        · exact absurd h hstray
      by_cases hdir : e.isDir = true
      · by_cases hempt : (sortWith fileLe (e.children.filter isPdfFile)).isEmpty = true
        · have hempt2 : (e.children.filter isPdfFile).isEmpty = true := by
            rw [← sortWith_isEmpty_iff fileLe]
            exact hempt
          have hcand : bucketCandidate e = false := by
            unfold bucketCandidate
            rw [hstray2, hdir, hempt2]
            rfl
          have hstep : scanStep (accF, accS) e = (accF, accS) := by
            unfold scanStep
            rw [if_neg (by simp [hstray2]), if_pos hdir, if_pos hempt]
          rw [hstep, ih accF accS hnodup2 hdisj2]
          simp [List.filter_cons, hcand, hstray2]
        · have hempt2 : (e.children.filter isPdfFile).isEmpty = false := by
            rw [← sortWith_isEmpty_iff fileLe]
            cases h : (sortWith fileLe (e.children.filter isPdfFile)).isEmpty
            · rfl
            · exact absurd h hempt
          have hcand : bucketCandidate e = true := by
            unfold bucketCandidate
            rw [hstray2, hdir, hempt2]
            rfl
          have hfresh : ∀ p ∈ accF, p.1 ≠ e.name :=
            fun p hp => hdisj p hp e (List.mem_cons_self _ _)
          have hstep : scanStep (accF, accS) e =
              (accF ++ [(e.name, mkFolderStatus e)], accS) := by
            unfold scanStep
            rw [if_neg (by simp [hstray2]), if_pos hdir, if_neg hempt]
            rw [dictUpsert_fresh e.name (mkFolderStatus e) accF hfresh]
          rw [hstep, ih (accF ++ [(e.name, mkFolderStatus e)]) accS hnodup2 ?hd]
          case hd =>
            intro p hp e2 he2
            rcases List.mem_append.1 hp with hp2 | hp2
            · exact hdisj p hp2 e2 (List.mem_cons_of_mem _ he2)
            · have hpe : p = (e.name, mkFolderStatus e) := by simpa using hp2
              rw [hpe]
              intro hcontra
              have hcontra2 : e.name = e2.name := hcontra
              exact hnotin (by rw [hcontra2]; exact List.mem_map_of_mem RootEnt.name he2)
          simp [List.filter_cons, hcand, hstray2, List.append_assoc]
      · have hdir2 : e.isDir = false := by
          cases h : e.isDir
          · rfl
          · exact absurd h hdir
        have hcand : bucketCandidate e = false := by
          unfold bucketCandidate
          rw [hdir2]
          simp
        have hstep : scanStep (accF, accS) e = (accF, accS) := by
          unfold scanStep
          rw [if_neg (by simp [hstray2]), if_neg (by simp [hdir2])]
        rw [hstep, ih accF accS hnodup2 hdisj2]
        simp [List.filter_cons, hcand, hstray2]

/-- A non-PDF regular file sitting directly under the collection root. -/
def strayTxtEntry : RootEnt := ⟨"readme.txt".data, true, false, ".txt".data, []⟩

/-- C8 counterexample: `scan_folders` does not return every non-directory
root entry in the stray list — a `.txt` file directly under the root is
silently ignored (the loop only collects entries with suffix `.pdf`), so the
claim as stated is false. -/
theorem claim_C8_counterexample :
    strayTxtEntry ∈ [strayTxtEntry]
  ∧ strayTxtEntry.isFile = true
  ∧ strayTxtEntry.isDir = false
  ∧ (scan_folders [strayTxtEntry]).root_pdfs = []
  ∧ strayTxtEntry ∉ (scan_folders [strayTxtEntry]).root_pdfs := by decide

/-- C8 (amended): under distinct entry names (true of any real directory),
the scan returns as buckets exactly the directories directly under the root
with at least one PDF child, sorted by name (the names are in ascending
lexicographic order), and the stray list holds exactly the non-directory
entries whose lower-cased suffix is `.pdf`, in scan order; other
non-directory entries appear nowhere. -/
theorem claim_C8_scan_buckets_strays (entries : List RootEnt)
    (hnodup : (entries.map RootEnt.name).Nodup) :
    (scan_folders entries).root_pdfs = entries.filter isStrayPdf
  ∧ (scan_folders entries).folders =
      sortWith statusLe ((entries.filter bucketCandidate).map mkFolderStatus)
  ∧ (scan_folders entries).folders.Perm
      ((entries.filter bucketCandidate).map mkFolderStatus)
  ∧ ((scan_folders entries).folders.map FolderStatus.name).Pairwise
      (fun a b => lexLt b a = false) := by
  have hl := scan_loop entries [] [] hnodup (fun p hp => absurd hp (List.not_mem_nil p))
  have hfold : scan_folders entries =
      ⟨sortWith statusLe ((entries.filter bucketCandidate).map mkFolderStatus),
       entries.filter isStrayPdf⟩ := by
    unfold scan_folders
    rw [hl]
    simp only [List.nil_append, List.map_map]
    rfl
  refine ⟨?_, ?_, ?_, ?_⟩
  · rw [hfold]
  · rw [hfold]
  · rw [hfold]
    exact sortWith_perm _ _
  · rw [hfold]
    have hpw := sortWith_pairwise statusLe statusLe_total statusLe_trans
      ((entries.filter bucketCandidate).map mkFolderStatus)
    rw [List.pairwise_map]
    refine hpw.imp ?_
    intro a b h
    unfold statusLe at h
    simpa using h

/-- A small concrete root for the C8 witness: one stray PDF, one bucket with
one PDF child, one empty directory, one ignored text file. -/
def demoScanEntries : List RootEnt :=
  [⟨"loose.pdf".data, true, false, ".pdf".data, []⟩,
   ⟨"bucketA".data, false, true, "".data, [⟨"01_x.pdf".data, true, ".pdf".data, false⟩]⟩,
   ⟨"emptyBucket".data, false, true, "".data, []⟩,
   ⟨"notes.txt".data, true, false, ".txt".data, []⟩]

/-- Witness for the amended C8 at a concrete root listing. -/
theorem claim_C8_scan_buckets_strays_witness :
    (demoScanEntries.map RootEnt.name).Nodup
  ∧ ((scan_folders demoScanEntries).root_pdfs = demoScanEntries.filter isStrayPdf
  ∧ (scan_folders demoScanEntries).folders =
      sortWith statusLe ((demoScanEntries.filter bucketCandidate).map mkFolderStatus)
  ∧ (scan_folders demoScanEntries).folders.Perm
      ((demoScanEntries.filter bucketCandidate).map mkFolderStatus)
  ∧ ((scan_folders demoScanEntries).folders.map FolderStatus.name).Pairwise
      (fun a b => lexLt b a = false)) :=
  ⟨by decide, claim_C8_scan_buckets_strays demoScanEntries (by decide)⟩

/-! ## `scenario_rescoring.py`

Scores are exact rationals.  Python's `round(x, 1)` is modelled by its
documented rule — round to the nearest multiple of 1/10, ties to the even
choice — applied to the exact value (the binary floating-point representation
of the source is abstracted away). -/

/-- The `SCORE_TO_LEVEL` table of `scenario_rescoring.py` (lines 34-40). -/
def SCORE_TO_LEVEL : List (ℚ × String) :=
  [(9, "⭐⭐⭐⭐⭐"), (7.5, "⭐⭐⭐⭐"), (6, "⭐⭐⭐"), (4, "⭐⭐"), (0, "⭐")]

/-- The `for threshold, level in SCORE_TO_LEVEL` loop of `score_to_level`. -/
def levelLookup (score : ℚ) : List (ℚ × String) → String
  | [] => "⭐"
  | (threshold, level) :: rest =>
    if threshold ≤ score then level else levelLookup score rest

/-- Embedding of `scenario_rescoring.score_to_level` (lines 70-75). -/
def score_to_level (score : ℚ) : String := levelLookup score SCORE_TO_LEVEL

/-- Round a rational to the nearest integer, ties to even: the documented
behaviour of Python's `round` on the exact value. -/
def roundHalfToEven (x : ℚ) : ℤ :=
  let f := ⌊x⌋
  if x - f < 1 / 2 then f
  else if 1 / 2 < x - f then f + 1
  else if f % 2 = 0 then f else f + 1

/-- Model of Python `round(x, 1)`. -/
def pyRound1 (x : ℚ) : ℚ := (roundHalfToEven (10 * x) : ℚ) / 10

structure Weights where
  rigor : ℚ
  innovation : ℚ
  practicality : ℚ
  impact : ℚ
  readability : ℚ
deriving DecidableEq

abbrev Row := List (String × String)

structure PaperRecord where
  index : String
  title : String
  rigor : ℚ
  innovation : ℚ
  practicality : ℚ
  impact : ℚ
  readability : ℚ
  p0_overall : ℚ
  p0_level : String
  original_row : Row
deriving DecidableEq

structure ScenarioScore where
  scenario_name : String
  overall_score : ℚ
  level : String
deriving DecidableEq

/-- Embedding of `scenario_rescoring.calculate_scenario_score`
(lines 112-130). -/
def calculate_scenario_score (paper : PaperRecord) (weights : Weights) :
    ScenarioScore :=
  let overall := paper.rigor * weights.rigor + paper.innovation * weights.innovation +
    paper.practicality * weights.practicality + paper.impact * weights.impact +
    paper.readability * weights.readability
  let rounded := pyRound1 overall
  ⟨"", rounded, score_to_level rounded⟩

theorem roundHalfToEven_spec (y : ℚ) :
    |y - roundHalfToEven y| ≤ 1 / 2
  ∧ (Even (roundHalfToEven y) ∨ |y - roundHalfToEven y| < 1 / 2) := by
  have hf1 : (⌊y⌋ : ℚ) ≤ y := Int.floor_le y
  have hf2 : y < ⌊y⌋ + 1 := Int.lt_floor_add_one y
  unfold roundHalfToEven
  by_cases h1 : y - (⌊y⌋ : ℚ) < 1 / 2
  · rw [if_pos h1]
    have habs : |y - (⌊y⌋ : ℚ)| = y - ⌊y⌋ := abs_of_nonneg (by linarith)
    rw [habs]
    exact ⟨by linarith, Or.inr (by linarith)⟩
  · rw [if_neg h1]
    by_cases h2 : 1 / 2 < y - (⌊y⌋ : ℚ)
    · rw [if_pos h2]
      have habs : |y - ((⌊y⌋ + 1 : ℤ) : ℚ)| = ((⌊y⌋ + 1 : ℤ) : ℚ) - y := by
        rw [abs_of_nonpos]
        · ring
        · push_cast
          linarith
      rw [habs]
      push_cast
      exact ⟨by linarith, Or.inr (by linarith)⟩
    · rw [if_neg h2]
      have heq : y - (⌊y⌋ : ℚ) = 1 / 2 := by linarith
      by_cases h3 : ⌊y⌋ % 2 = 0
      · rw [if_pos h3]
        have habs : |y - (⌊y⌋ : ℚ)| = 1 / 2 := by rw [heq]; norm_num
        exact ⟨le_of_eq habs, Or.inl (Int.even_iff.mpr h3)⟩
      · rw [if_neg h3]
        have habs : |y - ((⌊y⌋ + 1 : ℤ) : ℚ)| = 1 / 2 := by
          push_cast
          rw [abs_of_nonpos (by linarith)]
          linarith
        refine ⟨le_of_eq habs, Or.inl ?_⟩
        have hodd : ⌊y⌋ % 2 = 1 := Int.emod_two_eq_zero_or_one ⌊y⌋ |>.resolve_left h3
        rcases Int.even_or_odd ⌊y⌋ with he | ho
        · exact absurd (Int.even_iff.mp he) (by rw [hodd]; norm_num)
        · exact Int.even_add_one.mpr (Int.not_even_iff_odd.mpr ho)

/-- C5: per scenario and record, the overall score is the five-dimension
weighted sum rounded to one decimal place under a single fixed rule —
round-half-to-even (Python's documented `round`, modelled over exact
rationals) — and the qualitative level comes from the fixed threshold table
evaluated highest-first with inclusive lower bounds (below 4.0 everything is
the one-star tier).  The final conjunct checks the spec's own example:
weights (0.3, 0.25, 0.25, 0.15, 0.05) on dimensions (8, 9, 7, 6, 5) give
overall 7.6 (a .x5 tie, rounded up to the even choice) and the four-star
level. -/
theorem claim_C5_weighted_scoring (paper : PaperRecord) (weights : Weights) :
    (calculate_scenario_score paper weights).overall_score =
      pyRound1 (paper.rigor * weights.rigor + paper.innovation * weights.innovation +
        paper.practicality * weights.practicality + paper.impact * weights.impact +
        paper.readability * weights.readability)
  ∧ (∀ x : ℚ, ∃ n : ℤ, pyRound1 x = (n : ℚ) / 10
      ∧ |10 * x - (n : ℚ)| ≤ 1 / 2
      ∧ (Even n ∨ |10 * x - (n : ℚ)| < 1 / 2))
  ∧ (∀ r : ℚ, score_to_level r =
      if 9 ≤ r then "⭐⭐⭐⭐⭐" else if 7.5 ≤ r then "⭐⭐⭐⭐"
      else if 6 ≤ r then "⭐⭐⭐" else if 4 ≤ r then "⭐⭐" else "⭐")
  ∧ (calculate_scenario_score paper weights).level =
      score_to_level (calculate_scenario_score paper weights).overall_score
  ∧ calculate_scenario_score ⟨"", "", 8, 9, 7, 6, 5, 0, "", []⟩
      ⟨0.3, 0.25, 0.25, 0.15, 0.05⟩ = ⟨"", 7.6, "⭐⭐⭐⭐"⟩ := by
  refine ⟨rfl, ?_, ?_, rfl, ?_⟩
  · intro x
    exact ⟨roundHalfToEven (10 * x), rfl, (roundHalfToEven_spec (10 * x)).1,
      (roundHalfToEven_spec (10 * x)).2⟩
  · intro r
    simp only [score_to_level, SCORE_TO_LEVEL, levelLookup, ite_self]
  · have hfl : roundHalfToEven (10 * ((8:ℚ) * 0.3 + 9 * 0.25 + 7 * 0.25 +
        6 * 0.15 + 5 * 0.05)) = 76 := by
      have h10 : 10 * ((8:ℚ) * 0.3 + 9 * 0.25 + 7 * 0.25 + 6 * 0.15 + 5 * 0.05) = 75.5 := by
        norm_num
      rw [h10]
      unfold roundHalfToEven
      have hf : ⌊(75.5 : ℚ)⌋ = 75 := by norm_num
      rw [hf]
      rw [if_neg (by norm_num), if_neg (by norm_num), if_neg (by norm_num)]
      norm_num
    have hval : pyRound1 ((8:ℚ) * 0.3 + 9 * 0.25 + 7 * 0.25 + 6 * 0.15 + 5 * 0.05) = 7.6 := by
      unfold pyRound1
      rw [hfl]
      norm_num
    have hlev : score_to_level 7.6 = "⭐⭐⭐⭐" := by
      simp only [score_to_level, SCORE_TO_LEVEL, levelLookup]
      rw [if_neg (by norm_num), if_pos (by norm_num)]
    unfold calculate_scenario_score
    dsimp only
    rw [hval, hlev]

/-! ## `scenario_rescoring.load_p0_csv` and the output tables -/

/-- Numeric value of an all-digit character list. -/
def digitsToNat (l : PyStr) : Nat :=
  l.foldl (fun n c => 10 * n + (c.toNat - 48)) 0

/-- The unsigned part of a decimal literal: digits, optionally followed by a
dot and further digits, with at least one digit in total. -/
def parseUnsignedFloat? (t : PyStr) : Option ℚ :=
  let intPart := t.takeWhile Char.isDigit
  let rest := t.dropWhile Char.isDigit
  match rest with
  | [] => if intPart.isEmpty then none else some (digitsToNat intPart)
  | c :: frac =>
    if c == '.' && frac.all Char.isDigit && !(intPart.isEmpty && frac.isEmpty) then
      some ((digitsToNat intPart : ℚ) + (digitsToNat frac : ℚ) / 10 ^ frac.length)
    else none

/-- Model of Python `float(s)` restricted to optionally-signed decimal
literals with surrounding whitespace — the forms the CSV score columns carry.
Exponent, infinity and nan forms are outside the model; any string not of
this shape fails (`none`), as `float` raises `ValueError`. -/
def pyFloat? (s : String) : Option ℚ :=
  match pyStrip s.data with
  | [] => none
  | c :: rest =>
    if c == '-' then (parseUnsignedFloat? rest).map (fun q => -q)
    else if c == '+' then parseUnsignedFloat? rest
    else parseUnsignedFloat? (c :: rest)

def rowGet (row : Row) (col : String) : Option String :=
  (row.find? (fun kv => kv.1 == col)).map Prod.snd

/-- The value `float(row.get(col, 0) or 0)` computes for one score column: a
missing column or empty cell short-circuits to `0` (Python falsiness), any
other cell goes through `float`, whose failure aborts the record. -/
def dimValue (row : Row) (col : String) : Option ℚ :=
  match rowGet row col with
  | none => some 0
  | some v => if v = "" then some 0 else pyFloat? v

/-- The five score columns of the combined CSV. -/
def dimensionColumns : List String :=
  ["学术严谨度", "创新程度", "实用价值", "影响范围", "可读性"]

/-- Embedding of the `PaperRecord(...)` construction inside
`scenario_rescoring.load_p0_csv` (lines 84-109): the six `float(...)` calls
are evaluated in order and the first `ValueError` drops the whole row. -/
def loadRecord (row : Row) : Option PaperRecord := do
  let r ← dimValue row "学术严谨度"
  let innov ← dimValue row "创新程度"
  let pract ← dimValue row "实用价值"
  let imp ← dimValue row "影响范围"
  let readab ← dimValue row "可读性"
  let ov ← dimValue row "综合评分"
  pure ⟨String.mk (pyStrip ((rowGet row "编号").getD "").data),
        String.mk (pyStrip ((rowGet row "标题").getD "").data),
        r, innov, pract, imp, readab, ov,
        (rowGet row "推荐等级").getD "", row⟩

structure LoadResult where
  papers : List PaperRecord
  warnings : List Row
deriving DecidableEq

/-- Embedding of the row loop of `load_p0_csv`: a parsed row is appended to
`papers`, a row whose scores fail to parse is skipped with exactly one
warning naming it. -/
def load_p0_csv (rows : List Row) : LoadResult :=
  rows.foldl
    (fun acc row =>
      match loadRecord row with
      | some p => ⟨acc.papers ++ [p], acc.warnings⟩
      | none => ⟨acc.papers, acc.warnings ++ [row]⟩)
    ⟨[], []⟩

structure CompRow where
  index : String
  title : String
  rigor : ℚ
  innovation : ℚ
  practicality : ℚ
  impact : ℚ
  readability : ℚ
  p0_overall : ℚ
  p0_level : String
  scenarioScores : List (ℚ × String)
deriving DecidableEq

/-- One data row of the multi-scenario comparison table
(`create_comparison_table`, lines 133-183). -/
def compRowOf (scenarios : List (String × Weights)) (p : PaperRecord) : CompRow :=
  ⟨p.index, p.title, p.rigor, p.innovation, p.practicality, p.impact, p.readability,
   p.p0_overall, p.p0_level,
   scenarios.map (fun sc =>
     ((calculate_scenario_score p sc.2).overall_score,
      (calculate_scenario_score p sc.2).level))⟩

/-- Embedding of `scenario_rescoring.create_comparison_table` (data rows):
one row per loaded record, in input order. -/
def create_comparison_table (papers : List PaperRecord)
    (scenarios : List (String × Weights)) : List CompRow :=
  papers.map (compRowOf scenarios)

structure RankRow where
  original_row : Row
  overall : ℚ
  level : String
  flag : String
deriving DecidableEq

/-- Descending-by-score comparison for `scored_papers.sort(key=lambda x:
x[1].overall_score, reverse=True)`: `a` may stay before `b` iff `b`'s score
is at most `a`'s, so equal scores keep input order (Python's sort is
stable). -/
def rankDescLe (a b : PaperRecord × ScenarioScore) : Bool :=
  decide (b.2.overall_score ≤ a.2.overall_score)

/-- Embedding of the per-scenario table body of
`create_scenario_ranking_tables` (lines 195-232): score every paper, sort
descending (stable), and emit each original row plus the scenario's
(overall, level) and the top-10 flag `🔥 TOP rank` (rank is 1-based). -/
def ranking_table (papers : List PaperRecord) (w : Weights) : List RankRow :=
  let scored := papers.map (fun p => (p, calculate_scenario_score p w))
  let sorted := sortWith rankDescLe scored
  sorted.enum.map (fun pr =>
    ⟨pr.2.1.original_row, pr.2.2.overall_score, pr.2.2.level,
     if pr.1 + 1 ≤ 10 then "🔥 TOP " ++ toString (pr.1 + 1) else ""⟩)

structure RankTable where
  headers : List String
  rows : List RankRow
deriving DecidableEq

inductive TableError where
  | indexOutOfRange
deriving DecidableEq

/-- Embedding of `scenario_rescoring.create_scenario_ranking_tables`
(lines 186-235): for each scenario the header list is built from
`papers[0].original_row.keys()`, which raises `IndexError` when no record
parsed; the raise aborts the whole generation (modelled by `Except`). -/
def create_scenario_ranking_tables (papers : List PaperRecord)
    (scenarios : List (String × Weights)) :
    Except TableError (List (String × RankTable)) :=
  scenarios.foldl
    (fun acc sc =>
      match acc with
      | .error e => .error e
      | .ok ts =>
        match papers with
        | [] => .error .indexOutOfRange
        | p0 :: _ =>
          .ok (ts ++ [(sc.1,
            ⟨p0.original_row.map Prod.fst ++
               ["综合评分_" ++ sc.1, "推荐等级_" ++ sc.1, "★推荐指数"],
             ranking_table papers sc.2⟩)]))
    (.ok [])

theorem loadRecord_none_of_bad_dim (row : Row) (col : String)
    (hcol : col ∈ dimensionColumns) (hnone : dimValue row col = none) :
    loadRecord row = none := by
  simp only [dimensionColumns, List.mem_cons, List.not_mem_nil, or_false] at hcol
  rcases h1 : dimValue row "学术严谨度" with _ | q1
  · simp [loadRecord, h1]
  rcases h2 : dimValue row "创新程度" with _ | q2
  · simp [loadRecord, h1, h2]
  rcases h3 : dimValue row "实用价值" with _ | q3
  · simp [loadRecord, h1, h2, h3]
  rcases h4 : dimValue row "影响范围" with _ | q4
  · simp [loadRecord, h1, h2, h3, h4]
  rcases h5 : dimValue row "可读性" with _ | q5
  · simp [loadRecord, h1, h2, h3, h4, h5]
  exfalso
  rcases hcol with rfl | rfl | rfl | rfl | rfl
  · rw [h1] at hnone; exact absurd hnone (by simp)
  · rw [h2] at hnone; exact absurd hnone (by simp)
  · rw [h3] at hnone; exact absurd hnone (by simp)
  · rw [h4] at hnone; exact absurd hnone (by simp)
  · rw [h5] at hnone; exact absurd hnone (by simp)

theorem loadRecord_original_row (row : Row) (p : PaperRecord)
    (h : loadRecord row = some p) : p.original_row = row := by
  rcases h1 : dimValue row "学术严谨度" with _ | q1
  · simp [loadRecord, h1] at h
  rcases h2 : dimValue row "创新程度" with _ | q2
  · simp [loadRecord, h1, h2] at h
  rcases h3 : dimValue row "实用价值" with _ | q3
  · simp [loadRecord, h1, h2, h3] at h
  rcases h4 : dimValue row "影响范围" with _ | q4
  · simp [loadRecord, h1, h2, h3, h4] at h
  rcases h5 : dimValue row "可读性" with _ | q5
  · simp [loadRecord, h1, h2, h3, h4, h5] at h
  rcases h6 : dimValue row "综合评分" with _ | q6
  · simp [loadRecord, h1, h2, h3, h4, h5, h6] at h
  have hq : loadRecord row = some
      ⟨String.mk (pyStrip ((rowGet row "编号").getD "").data),
       String.mk (pyStrip ((rowGet row "标题").getD "").data),
       q1, q2, q3, q4, q5, q6,
       (rowGet row "推荐等级").getD "", row⟩ := by
    simp [loadRecord, h1, h2, h3, h4, h5, h6]
  rw [hq] at h
  rw [← Option.some.inj h]

theorem load_p0_csv_spec (rows : List Row) :
    (load_p0_csv rows).papers = rows.filterMap loadRecord
  ∧ (load_p0_csv rows).warnings = rows.filter (fun r => (loadRecord r).isNone) := by
  suffices h : ∀ (rs : List Row) (acc : LoadResult),
      rs.foldl
        (fun acc row =>
          match loadRecord row with
          | some p => ⟨acc.papers ++ [p], acc.warnings⟩
          | none => ⟨acc.papers, acc.warnings ++ [row]⟩) acc =
      ⟨acc.papers ++ rs.filterMap loadRecord,
       acc.warnings ++ rs.filter (fun r => (loadRecord r).isNone)⟩ by
    unfold load_p0_csv
    rw [h rows ⟨[], []⟩]
    simp
  intro rs
  induction rs with
  | nil => intro acc; simp
  | cons r rs ih =>
    intro acc
    simp only [List.foldl_cons]
    rcases hr : loadRecord r with _ | p
    · simp only [hr]
      rw [ih]
      simp [List.filterMap_cons, hr, List.filter_cons, List.append_assoc]
    · simp only [hr]
      rw [ih]
      simp [List.filterMap_cons, hr, List.filter_cons, List.append_assoc]

theorem ranking_table_mem (papers : List PaperRecord) (w : Weights) :
    ∀ rr ∈ ranking_table papers w, ∃ p ∈ papers,
      rr.original_row = p.original_row
      ∧ rr.overall = (calculate_scenario_score p w).overall_score
      ∧ rr.level = (calculate_scenario_score p w).level := by
  intro rr hrr
  unfold ranking_table at hrr
  simp only [List.mem_map] at hrr
  obtain ⟨pr, hpr, hbuild⟩ := hrr
  have hsnd : pr.2 ∈ sortWith rankDescLe
      (papers.map (fun p => (p, calculate_scenario_score p w))) := by
    have h2 := List.mem_map_of_mem Prod.snd hpr
    rwa [List.enum_map_snd] at h2
  have hsc : pr.2 ∈ papers.map (fun p => (p, calculate_scenario_score p w)) :=
    (sortWith_perm _ _).mem_iff.mp hsnd
  simp only [List.mem_map] at hsc
  obtain ⟨p, hp, hpe⟩ := hsc
  refine ⟨p, hp, ?_, ?_, ?_⟩ <;> rw [← hbuild] <;> rw [← hpe]

/-- A combined-CSV row whose rigor cell is empty. -/
def demoEmptyDimRow : Row :=
  [("编号", "7"), ("标题", "X"), ("学术严谨度", ""), ("创新程度", "8"),
   ("实用价值", "8"), ("影响范围", "8"), ("可读性", "8"), ("综合评分", "8"),
   ("推荐等级", "⭐")]

/-- C6 counterexample: an *empty* dimension value does not drop the record.
`float('')` would raise — `pyFloat? "" = none` — but the source computes
`float(row.get(col, 0) or 0)`, and the empty string is falsy, so the cell is
coerced to 0.0: the row is kept (no warning, one paper, rigor 0), which
contradicts the claim that a record with an unparsable (including empty)
dimension is dropped with a warning. -/
theorem claim_C6_counterexample :
    rowGet demoEmptyDimRow "学术严谨度" = some ""
  ∧ pyFloat? "" = none
  ∧ (load_p0_csv [demoEmptyDimRow]).warnings = []
  ∧ (load_p0_csv [demoEmptyDimRow]).papers.length = 1
  ∧ (load_p0_csv [demoEmptyDimRow]).papers.map PaperRecord.rigor = [0] := by decide

/-- C6 (amended): a row one of whose five dimension cells holds a non-empty
string that does not parse as a number is dropped from scoring entirely — it
yields no PaperRecord, appears in no scenario ranking table and in no
comparison-table row (every table row comes from a kept record), and exactly
one warning per occurrence of the row is emitted (the warnings list holds it
as many times as the input does, at least once).  An empty or missing cell,
by contrast, is coerced to 0.0 (see the counterexample). -/
theorem claim_C6_dropped_record (rows : List Row) (row : Row) (col : String)
    (v : String) (hrow : row ∈ rows) (hcol : col ∈ dimensionColumns)
    (hv : rowGet row col = some v) (hne : v ≠ "") (hbad : pyFloat? v = none) :
    loadRecord row = none
  ∧ row ∉ (load_p0_csv rows).papers.map PaperRecord.original_row
  ∧ (load_p0_csv rows).warnings.count row = rows.count row
  ∧ 0 < (load_p0_csv rows).warnings.count row
  ∧ (∀ w : Weights, ∀ rr ∈ ranking_table (load_p0_csv rows).papers w,
      rr.original_row ≠ row)
  ∧ (∀ scenarios : List (String × Weights),
      ∀ cr ∈ create_comparison_table (load_p0_csv rows).papers scenarios,
        ∃ p ∈ (load_p0_csv rows).papers,
          cr = compRowOf scenarios p ∧ p.original_row ≠ row) := by
  have hnone : dimValue row col = none := by
    unfold dimValue
    rw [hv]
    dsimp only
    rw [if_neg hne]
    exact hbad
  have hdrop : loadRecord row = none := loadRecord_none_of_bad_dim row col hcol hnone
  obtain ⟨hpap, hwarn⟩ := load_p0_csv_spec rows
  have hnotin : ∀ p ∈ (load_p0_csv rows).papers, p.original_row ≠ row := by
    intro p hp heq
    rw [hpap] at hp
    obtain ⟨r, hr, hload⟩ := List.mem_filterMap.mp hp
    have horig := loadRecord_original_row r p hload
    rw [horig] at heq
    rw [heq] at hload
    rw [hdrop] at hload
    exact absurd hload (by simp)
  refine ⟨hdrop, ?_, ?_, ?_, ?_, ?_⟩
  · intro hmem
    obtain ⟨p, hp, hpe⟩ := List.mem_map.mp hmem
    exact hnotin p hp hpe
  · rw [hwarn]
    exact List.count_filter (by simp [hdrop])
  · rw [hwarn, List.count_filter (by simp [hdrop])]
    exact List.count_pos_iff.mpr hrow
  · intro w rr hrr
    obtain ⟨p, hp, horig, _, _⟩ := ranking_table_mem (load_p0_csv rows).papers w rr hrr
    rw [horig]
    exact hnotin p hp
  · intro scenarios cr hcr
    obtain ⟨p, hp, hpe⟩ := List.mem_map.mp hcr
    exact ⟨p, hp, hpe.symm, hnotin p hp⟩

/-- A parsable row for the C6 witness. -/
def demoGoodRow : Row :=
  [("编号", "1"), ("学术严谨度", "8"), ("创新程度", "8"), ("实用价值", "8"),
   ("影响范围", "8"), ("可读性", "8"), ("综合评分", "8")]

/-- A row whose rigor cell is the non-numeric string `abc`. -/
def demoBadDimRow : Row :=
  [("编号", "2"), ("学术严谨度", "abc"), ("创新程度", "8")]

def demoRows : List Row := [demoGoodRow, demoBadDimRow]

/-- Witness for the amended C6 at a concrete two-row input whose second row
carries the non-numeric rigor value `abc`. -/
theorem claim_C6_dropped_record_witness :
    (demoBadDimRow ∈ demoRows ∧ "学术严谨度" ∈ dimensionColumns
      ∧ rowGet demoBadDimRow "学术严谨度" = some "abc"
      ∧ "abc" ≠ "" ∧ pyFloat? "abc" = none)
  ∧ (loadRecord demoBadDimRow = none
  ∧ demoBadDimRow ∉ (load_p0_csv demoRows).papers.map PaperRecord.original_row
  ∧ (load_p0_csv demoRows).warnings.count demoBadDimRow = demoRows.count demoBadDimRow
  ∧ 0 < (load_p0_csv demoRows).warnings.count demoBadDimRow
  ∧ (∀ w : Weights, ∀ rr ∈ ranking_table (load_p0_csv demoRows).papers w,
      rr.original_row ≠ demoBadDimRow)
  ∧ (∀ scenarios : List (String × Weights),
      ∀ cr ∈ create_comparison_table (load_p0_csv demoRows).papers scenarios,
        ∃ p ∈ (load_p0_csv demoRows).papers,
          cr = compRowOf scenarios p ∧ p.original_row ≠ demoBadDimRow)) :=
  ⟨⟨by decide, by decide, by decide, by decide, by decide⟩,
   claim_C6_dropped_record demoRows demoBadDimRow "学术严谨度" "abc"
     (by decide) (by decide) (by decide) (by decide) (by decide)⟩

theorem enumFrom_filter_map_snd {α : Type _} (p : α → Bool) :
    ∀ (n : Nat) (l : List α),
      ((List.enumFrom n l).filter (fun ix => p ix.2)).map Prod.snd = l.filter p := by
  intro n l
  induction l generalizing n with
  | nil => simp
  | cons x xs ih =>
    simp only [List.enumFrom_cons, List.filter_cons]
    cases hp : p x
    · simpa [hp] using ih (n + 1)
    · simpa [hp] using ih (n + 1)

theorem enum_filter_map_snd {α : Type _} (p : α → Bool) (l : List α) :
    (l.enum.filter (fun ix => p ix.2)).map Prod.snd = l.filter p := by
  unfold List.enum
  exact enumFrom_filter_map_snd p 0 l

theorem rankDescLe_total : ∀ a b : PaperRecord × ScenarioScore,
    rankDescLe a b = true ∨ rankDescLe b a = true := by
  intro a b
  unfold rankDescLe
  rcases le_total b.2.overall_score a.2.overall_score with h | h
  · exact Or.inl (decide_eq_true h)
  · exact Or.inr (decide_eq_true h)

theorem rankDescLe_trans : ∀ a b c : PaperRecord × ScenarioScore,
    rankDescLe a b = true → rankDescLe b c = true → rankDescLe a c = true := by
  intro a b c h1 h2
  unfold rankDescLe at h1 h2 ⊢
  exact decide_eq_true (le_trans (of_decide_eq_true h2) (of_decide_eq_true h1))

theorem enum_map_eval {α β : Type _} (f : α → β) (build : Nat × α → β)
    (h : ∀ ix : Nat × α, build ix = f ix.2) (l : List α) :
    l.enum.map build = l.map f := by
  have h2 : l.enum.map build = l.enum.map (f ∘ Prod.snd) :=
    List.map_congr_left (fun ix _ => h ix)
  rw [h2, ← List.map_map, List.enum_map_snd]

theorem enum_filter_map_eval {α β : Type _} (p2 : α → Bool) (g : α → β)
    (pb : Nat × α → Bool) (gb : Nat × α → β)
    (hp : ∀ ix : Nat × α, pb ix = p2 ix.2) (hg : ∀ ix : Nat × α, gb ix = g ix.2)
    (l : List α) :
    (l.enum.filter pb).map gb = (l.filter p2).map g := by
  have h1 : l.enum.filter pb = l.enum.filter (fun ix => p2 ix.2) :=
    List.filter_congr (fun ix _ => hp ix)
  have h2 : (l.enum.filter (fun ix => p2 ix.2)).map gb =
      (l.enum.filter (fun ix => p2 ix.2)).map (g ∘ Prod.snd) :=
    List.map_congr_left (fun ix _ => hg ix)
  rw [h1, h2, ← List.map_map, enum_filter_map_snd]

/-- C7: each scenario ranking table carries every loaded record with its
original row and the scenario's (overall, level) — the triple projection of
the table is a permutation of the records' — sorted descending by the
scenario overall; records with equal overall scores keep their relative input
order (selecting any fixed score value out of the table yields exactly the
input-order records with that score); and the row at 0-based position n is
flagged `🔥 TOP (n+1)` exactly when n + 1 ≤ 10, and carries the empty flag
otherwise. -/
theorem claim_C7_ranking_table (papers : List PaperRecord) (w : Weights) :
    ((ranking_table papers w).map (fun r => (r.original_row, r.overall, r.level))).Perm
      (papers.map (fun p => (p.original_row, (calculate_scenario_score p w).overall_score,
        (calculate_scenario_score p w).level)))
  ∧ ((ranking_table papers w).map RankRow.overall).Pairwise (· ≥ ·)
  ∧ (∀ q : ℚ,
      ((ranking_table papers w).filter (fun r => decide (r.overall = q))).map
          RankRow.original_row =
        (papers.filter
            (fun p => decide ((calculate_scenario_score p w).overall_score = q))).map
          PaperRecord.original_row)
  ∧ (∀ n : Nat, ((ranking_table papers w)[n]?).map RankRow.flag =
      if n < papers.length then
        some (if n + 1 ≤ 10 then "🔥 TOP " ++ toString (n + 1) else "")
      else none) := by
  have hlen : (sortWith rankDescLe
      (papers.map (fun p => (p, calculate_scenario_score p w)))).length = papers.length := by
    rw [(sortWith_perm rankDescLe _).length_eq, List.length_map]
  refine ⟨?_, ?_, ?_, ?_⟩
  · have htab : (ranking_table papers w).map (fun r => (r.original_row, r.overall, r.level)) =
        (sortWith rankDescLe (papers.map (fun p => (p, calculate_scenario_score p w)))).map
          (fun x => (x.1.original_row, x.2.overall_score, x.2.level)) := by
      unfold ranking_table
      rw [List.map_map]
      exact enum_map_eval
        (fun x : PaperRecord × ScenarioScore => (x.1.original_row, x.2.overall_score, x.2.level))
        _ (fun ix => rfl) _
    rw [htab]
    have hperm := (sortWith_perm rankDescLe
      (papers.map (fun p => (p, calculate_scenario_score p w)))).map
        (fun x : PaperRecord × ScenarioScore => (x.1.original_row, x.2.overall_score, x.2.level))
    refine hperm.trans ?_
    rw [List.map_map]
    exact List.Perm.refl _
  · have htab : (ranking_table papers w).map RankRow.overall =
        (sortWith rankDescLe (papers.map (fun p => (p, calculate_scenario_score p w)))).map
          (fun x => x.2.overall_score) := by
      unfold ranking_table
      rw [List.map_map]
      exact enum_map_eval
        (fun x : PaperRecord × ScenarioScore => x.2.overall_score) _ (fun ix => rfl) _
    rw [htab, List.pairwise_map]
    refine (sortWith_pairwise rankDescLe rankDescLe_total rankDescLe_trans _).imp ?_
    intro a b h
    exact of_decide_eq_true h
  · intro q
    unfold ranking_table
    rw [List.filter_map, List.map_map]
    have hstep : (((sortWith rankDescLe
          (papers.map (fun p => (p, calculate_scenario_score p w)))).enum.filter
        (fun ix : Nat × (PaperRecord × ScenarioScore) =>
          decide (ix.2.2.overall_score = q))).map
        (fun ix : Nat × (PaperRecord × ScenarioScore) => ix.2.1.original_row)) =
        ((sortWith rankDescLe
            (papers.map (fun p => (p, calculate_scenario_score p w)))).filter
          (fun x => decide (x.2.overall_score = q))).map (fun x => x.1.original_row) :=
      enum_filter_map_eval
        (fun x : PaperRecord × ScenarioScore => decide (x.2.overall_score = q))
        (fun x : PaperRecord × ScenarioScore => x.1.original_row)
        _ _ (fun ix => rfl) (fun ix => rfl) _
    show (((sortWith rankDescLe
          (papers.map (fun p => (p, calculate_scenario_score p w)))).enum.filter
        (fun ix : Nat × (PaperRecord × ScenarioScore) =>
          decide (ix.2.2.overall_score = q))).map
        (fun ix : Nat × (PaperRecord × ScenarioScore) => ix.2.1.original_row)) =
      (papers.filter
          (fun p => decide ((calculate_scenario_score p w).overall_score = q))).map
        PaperRecord.original_row
    rw [hstep]
    rw [sortWith_filter rankDescLe
      (fun x : PaperRecord × ScenarioScore => decide (x.2.overall_score = q))
      rankDescLe_total rankDescLe_trans ?hsep]
    case hsep =>
      intro a b ha hb
      have ha2 : a.2.overall_score = q := of_decide_eq_true ha
      have hb2 : ¬ (a.2.overall_score ≤ b.2.overall_score) := by
        intro hle
        unfold rankDescLe at hb
        rw [decide_eq_true hle] at hb
        exact absurd hb (by simp)
      have hlt : b.2.overall_score < a.2.overall_score := lt_of_not_le hb2
      apply decide_eq_false
      rw [ha2] at hlt
      exact ne_of_lt hlt
    rw [List.filter_map, List.map_map]
    rfl
  · intro n
    unfold ranking_table
    rw [List.getElem?_map, List.getElem?_enum]
    by_cases hn : n < papers.length
    · have hn2 : n < (sortWith rankDescLe
          (papers.map (fun p => (p, calculate_scenario_score p w)))).length := by
        rw [hlen]; exact hn
      rw [List.getElem?_eq_getElem hn2, if_pos hn]
      rfl
    · have hn2 : (sortWith rankDescLe
          (papers.map (fun p => (p, calculate_scenario_score p w)))).length ≤ n := by
        rw [hlen]; omega
      rw [List.getElem?_eq_none hn2, if_neg hn]
      rfl

theorem rank_tables_error_fold (papers : List PaperRecord) (e : TableError) :
    ∀ scs : List (String × Weights),
      scs.foldl
        (fun (acc : Except TableError (List (String × RankTable))) sc =>
          match acc with
          | Except.error e2 => Except.error e2
          | Except.ok ts =>
            match papers with
            | [] => Except.error TableError.indexOutOfRange
            | p0 :: _ =>
              Except.ok (ts ++ [(sc.1,
                ⟨p0.original_row.map Prod.fst ++
                   ["综合评分_" ++ sc.1, "推荐等级_" ++ sc.1, "★推荐指数"],
                 ranking_table papers sc.2⟩)]))
        (Except.error e) = Except.error e := by
  intro scs
  induction scs with
  | nil => rfl
  | cons sc rest ih =>
    simp only [List.foldl_cons]
    exact ih

theorem rank_tables_ok_fold (p0 : PaperRecord) (rest : List PaperRecord) :
    ∀ (scs : List (String × Weights)) (ts : List (String × RankTable)),
      ∃ out, scs.foldl
        (fun (acc : Except TableError (List (String × RankTable))) sc =>
          match acc with
          | Except.error e2 => Except.error e2
          | Except.ok ts2 =>
            match p0 :: rest with
            | [] => Except.error TableError.indexOutOfRange
            | q0 :: _ =>
              Except.ok (ts2 ++ [(sc.1,
                ⟨q0.original_row.map Prod.fst ++
                   ["综合评分_" ++ sc.1, "推荐等级_" ++ sc.1, "★推荐指数"],
                 ranking_table (p0 :: rest) sc.2⟩)]))
        (Except.ok ts) = Except.ok out ∧ out.length = ts.length + scs.length := by
  intro scs
  induction scs with
  | nil =>
    intro ts
    exact ⟨ts, rfl, by simp⟩
  | cons sc scs ih =>
    intro ts
    simp only [List.foldl_cons]
    obtain ⟨out, heq, hlen⟩ := ih (ts ++ [(sc.1,
      ⟨p0.original_row.map Prod.fst ++
         ["综合评分_" ++ sc.1, "推荐等级_" ++ sc.1, "★推荐指数"],
       ranking_table (p0 :: rest) sc.2⟩)])
    refine ⟨out, heq, ?_⟩
    rw [hlen]
    simp only [List.length_append, List.length_cons, List.length_nil]
    omega

/-- C9: when no record parsed, per-scenario ranking-table generation fails
with the index-out-of-range error from `papers[0]` (for each configured
scenario, instead of producing an empty table); with at least one record it
is total, producing one table per scenario.  The last conjunct connects the
precondition to the loader: if every row of the combined file is dropped as
unparsable (or there are none), the record list is empty. -/
theorem claim_C9_empty_records_error (papers : List PaperRecord)
    (scenarios : List (String × Weights)) :
    (papers = [] → scenarios ≠ [] →
      create_scenario_ranking_tables papers scenarios = .error .indexOutOfRange)
  ∧ (papers ≠ [] → ∃ ts, create_scenario_ranking_tables papers scenarios = .ok ts
      ∧ ts.length = scenarios.length)
  ∧ (∀ rows : List Row, (∀ r ∈ rows, loadRecord r = none) →
      (load_p0_csv rows).papers = []) := by
  refine ⟨?_, ?_, ?_⟩
  · rintro rfl hsc
    obtain ⟨sc, rest, rfl⟩ := List.exists_cons_of_ne_nil hsc
    unfold create_scenario_ranking_tables
    simp only [List.foldl_cons]
    exact rank_tables_error_fold [] .indexOutOfRange rest
  · intro hne
    obtain ⟨p0, rest, rfl⟩ := List.exists_cons_of_ne_nil hne
    obtain ⟨out, heq, hlen⟩ := rank_tables_ok_fold p0 rest scenarios []
    refine ⟨out, ?_, by simpa using hlen⟩
    unfold create_scenario_ranking_tables
    exact heq
  · intro rows hall
    rw [(load_p0_csv_spec rows).1]
    rw [List.filterMap_eq_nil_iff]
    exact hall

/-- A concrete scenario for the C9 witness. -/
def demoScenario : String × Weights := ("demo", ⟨0.3, 0.25, 0.25, 0.15, 0.05⟩)

/-- A concrete parsed record for the C9 witness. -/
def demoPaper : PaperRecord := ⟨"1", "t", 8, 8, 8, 8, 8, 8, "", []⟩

/-- Witness for C9: with one configured scenario, the empty record list makes
the generation raise, and a one-record list makes it succeed with one
table. -/
theorem claim_C9_empty_records_error_witness :
    (([demoScenario] : List (String × Weights)) ≠ []
      ∧ create_scenario_ranking_tables [] [demoScenario] = .error .indexOutOfRange)
  ∧ (([demoPaper] : List PaperRecord) ≠ []
      ∧ ∃ ts, create_scenario_ranking_tables [demoPaper] [demoScenario] = .ok ts
          ∧ ts.length = ([demoScenario] : List (String × Weights)).length) :=
  ⟨⟨by decide, (claim_C9_empty_records_error [] [demoScenario]).1 rfl (by decide)⟩,
   ⟨by decide, (claim_C9_empty_records_error [demoPaper] [demoScenario]).2.1 (by decide)⟩⟩
